import Mathlib

/-!
Verification of the minydra command-line argument parsing library.

This file gives a shallow embedding of the two core components of the
library — the `MinyDict` nested dictionary (src/minydra/dict.py) and the
`Parser` argument pipeline (src/minydra/parser.py) — and proves or refutes
the frozen specification claims about them.

Modelling conventions:
  * Python values that can appear in an argument dictionary are modelled by
    the inductive `PVal`.  Python `float` objects are modelled as exact
    decimals `mant / 10 ^ exp`; IEEE-754 rounding of the binary
    representation is not modelled (no claim depends on it).
  * Dictionary keys are strings.  The library accepts other hashable keys,
    but every claim under verification concerns string keys only.
  * Python in-place mutation is modelled by explicit state passing; a
    method that can raise returns `Except Err _`.
  * Unbounded recursions driven by run-time data (dot resolution, type
    inference, character scanning over a pattern) take an explicit fuel
    argument so that every definition is a computable structural
    recursion; exhausting fuel yields the distinguished error `Err.fuelOut`
    which corresponds to no Python behaviour (theorems about terminating
    runs are stated on results different from that error, or with fuel
    bounds that are proved sufficient).
  * Character classes (`\w`, `str.isdigit`, whitespace) are modelled over
    the ASCII range used by command lines; Python additionally accepts
    some unicode characters in these classes.
-/

set_option autoImplicit false

namespace Minydra

/-! ## String helpers

Python string primitives (`split`, `replace`, `strip`, `lower`,
`startswith`, `in`) re-implemented over `List Char` so that every
definition reduces inside the kernel. -/

/-- Generic split on a non-empty separator, Python `str.split(sep)`
semantics: non-overlapping matches, scanned left to right; the fuel is
instantiated with the length of the subject string, which one character
of progress per step makes sufficient. -/
def splitGo (sep : List Char) : Nat → List Char → List Char → List (List Char)
  | _, acc, [] => [acc.reverse]
  | 0, acc, rest => [acc.reverse ++ rest]
  | fuel+1, acc, c :: cs =>
      if sep.isPrefixOf (c :: cs) then
        acc.reverse :: splitGo sep fuel [] (List.drop (sep.length - 1) cs)
      else splitGo sep fuel (c :: acc) cs

/-- Python `s.split(sep)` for a non-empty separator (the library only ever
splits on `"___"`, `"."` and `"="`). -/
def pySplit (sep s : String) : List String :=
  if sep.isEmpty then [s] else (splitGo sep.data s.data.length [] s.data).map fun cs => ⟨cs⟩

/-- Replacement of every non-overlapping occurrence of `pat`, scanned left
to right; fuel as in `splitGo`. -/
def replGo (pat repl : List Char) : Nat → List Char → List Char
  | _, [] => []
  | 0, rest => rest
  | fuel+1, c :: cs =>
      if pat.isPrefixOf (c :: cs) then
        repl ++ replGo pat repl fuel (List.drop (pat.length - 1) cs)
      else c :: replGo pat repl fuel cs

/-- Python `s.replace(pat, repl)` for a non-empty pattern. -/
def pyReplace (s pat repl : String) : String :=
  if pat.isEmpty then s else ⟨replGo pat.data repl.data s.data.length s.data⟩

/-- Python `s.split(".")`: structural single-character split used by dot
resolution. -/
def splitDots : List Char → List (List Char)
  | [] => [[]]
  | c :: cs =>
    if c = '.' then [] :: splitDots cs
    else
      match splitDots cs with
      | [] => [[c]]
      | p :: ps => (c :: p) :: ps

/-- Python `s.split(".")` lifted to `String`. -/
def pySplitDots (s : String) : List String :=
  (splitDots s.data).map fun cs => ⟨cs⟩

/-- Python `c in s` for a single character. -/
def containsChar (c : Char) (s : String) : Bool := s.data.contains c

/-- Python `s.strip()` (ASCII whitespace). -/
def pyTrim (s : String) : String :=
  ⟨((s.data.dropWhile Char.isWhitespace).reverse.dropWhile Char.isWhitespace).reverse⟩

/-- Python `s.lower()`. -/
def pyLower (s : String) : String := ⟨s.data.map Char.toLower⟩

/-- Python `s.startswith(p)` for a single-character pattern. -/
def startsWithChar (c : Char) (s : String) : Bool :=
  match s.data with
  | [] => false
  | d :: _ => d = c

/-- Python `s.isdigit()` (ASCII digits; Python also accepts some unicode
digit characters, which command-line tokens do not contain). -/
def pyIsDigit (s : String) : Bool := !s.data.isEmpty && s.data.all Char.isDigit

/-- Numeric value of a digit string. -/
def digitsVal (ds : List Char) : Nat := ds.foldl (fun n c => 10 * n + (c.toNat - '0'.toNat)) 0

/-! ## The value model -/

/-- Errors raised by the modelled code.  Each constructor corresponds to a
Python exception site: `attributeFrozen` and `attributeProtected` to the
two `AttributeError`s of `MinyDict`, `keyErr` to `KeyError` (carrying the
offending key), `typeErr` to `TypeError`, `valueErr` to `ValueError`,
`duplicateArgument` to the `MinydraWrongArgumentException` for repeated
arguments.  `fuelOut` is a model artefact marking exhausted fuel. -/
inductive Err where
  | attributeFrozen
  | attributeProtected (name : String)
  | keyErr (k : String)
  | typeErr
  | valueErr
  | duplicateArgument (k : String)
  | fuelOut
  deriving DecidableEq, Repr

mutual
/-- Python values stored in argument dictionaries.  `vdict` is a plain
`dict`, `vminy` a `MinyDict` together with its `_frozen` flag; `vfloat`
is an exact decimal `mant / 10 ^ exp` (see the file header). -/
inductive PVal where
  | vnone
  | vbool (b : Bool)
  | vint (n : Int)
  | vfloat (mant : Int) (exp : Nat)
  | vstr (s : String)
  | vlist (xs : PList)
  | vdict (d : PDict)
  | vminy (frozen : Bool) (d : PDict)
  deriving DecidableEq, Repr
/-- A Python list of values. -/
inductive PList where
  | nil
  | cons (v : PVal) (tl : PList)
  deriving DecidableEq, Repr
/-- Entries of a Python dictionary, in insertion order, keys unique. -/
inductive PDict where
  | nil
  | cons (k : String) (v : PVal) (tl : PDict)
  deriving DecidableEq, Repr
end

namespace PDict

/-- Keys in insertion order (Python `list(d.keys())`). -/
def keysD : PDict → List String
  | .nil => []
  | .cons k _ tl => k :: keysD tl

/-- Python `d.get(k)` / `k in d` lookup. -/
def lookupD : PDict → String → Option PVal
  | .nil, _ => none
  | .cons k v tl, k' => if k = k' then some v else lookupD tl k'

/-- Python `k in d`. -/
def hasKey (d : PDict) (k : String) : Bool := (lookupD d k).isSome

/-- Python `d[k] = v` on a plain dict: replace in place if the key exists,
else append (insertion order preserved). -/
def insertD : PDict → String → PVal → PDict
  | .nil, k, v => .cons k v .nil
  | .cons k' v' tl, k, v => if k' = k then .cons k' v tl else .cons k' v' (insertD tl k v)

/-- Python `del d[k]` once the key is known to exist. -/
def eraseD : PDict → String → PDict
  | .nil, _ => .nil
  | .cons k' v' tl, k => if k' = k then tl else .cons k' v' (eraseD tl k)

/-- Number of entries. -/
def sizeD : PDict → Nat
  | .nil => 0
  | .cons _ _ tl => sizeD tl + 1

end PDict

export PDict (keysD lookupD hasKey insertD eraseD)

/-! ## MinyDict construction and mutation (src/minydra/dict.py) -/

namespace MinyDict

mutual
/-- Construction `MinyDict(d)` from a mapping (`__init__`, lines 32–47):
each entry value is passed through `_hook` and stored with `self[key] =
...`, whose own coercion re-wraps dict values.  The net effect, modelled
here directly, is that every `dict` or `MinyDict` reachable through
dictionary entries and list elements becomes a fresh unfrozen `MinyDict`
— except a `MinyDict` sitting directly inside a list, which `_hook`
returns untouched. -/
def ofDict : PDict → PDict
  | .nil => .nil
  | .cons k v tl => .cons k (entryCoerce v) (ofDict tl)
/-- Net transformation of one entry value during construction
(`self[key] = self._hook(val)`): dict-like values are rebuilt as
`MinyDict`s (rebuilding an already rebuilt value is a no-op, so the model
applies the rebuild once), list values are hooked elementwise, every
other value is stored as is. -/
def entryCoerce : PVal → PVal
  | .vdict d => .vminy false (ofDict d)
  | .vminy _ d => .vminy false (ofDict d)
  | .vlist xs => .vlist (hookL xs)
  | v => v
/-- Elementwise `_hook` over a list (`_hook`, lines 49–57). -/
def hookL : PList → PList
  | .nil => .nil
  | .cons v tl => .cons (hook v) (hookL tl)
/-- The `_hook` classmethod on a list element: a `MinyDict` is returned
untouched, a plain dict becomes `MinyDict(item)`, lists recurse. -/
def hook : PVal → PVal
  | .vdict d => .vminy false (ofDict d)
  | .vminy f d => .vminy f d
  | .vlist xs => .vlist (hookL xs)
  | v => v
end

/-- Value coercion performed by `__setitem__` (lines 76–87): a value that
is a `dict` (which includes `MinyDict`s) is rebuilt via `MinyDict(value)`
followed by `_resolve_nests()`, both of which collapse to `ofDict` on the
pure data; any other value — in particular a list — is stored verbatim. -/
def setItemCoerce : PVal → PVal
  | .vdict d => .vminy false (ofDict d)
  | .vminy _ d => .vminy false (ofDict d)
  | v => v

/-- The `__setitem__` method (lines 76–87) of a `MinyDict` whose `_frozen`
flag is `fz`: raises `AttributeError` when frozen, otherwise stores the
coerced value. -/
def setItem (fz : Bool) (d : PDict) (k : String) (v : PVal) : Except Err PDict :=
  if fz then .error .attributeFrozen
  else .ok (insertD d k (setItemCoerce v))

/-- Names `name` with `hasattr(MinyDict, name)`, used by the protected
check of `__setattr__` (line 72).  The model enumerates the attributes
defined in dict.py together with the inherited `dict`/`object` method and
dunder names; the claims only instantiate ordinary data keys, which lie
outside the set. -/
def protectedNames : List String :=
  ["update", "copy", "deepcopy", "freeze", "unfreeze", "resolve",
   "pretty_print", "to_dict", "to_json", "to_yaml", "to_pickle",
   "from_json", "from_yaml", "from_pickle", "keys", "values", "items",
   "get", "pop", "popitem", "clear", "setdefault", "fromkeys",
   "_hook", "_frozen", "_resolve_nests", "_resolve_dots",
   "_pretty_print_rec",
   "__init__", "__new__", "__class__", "__doc__", "__dict__", "__module__",
   "__getattr__", "__setattr__", "__delattr__", "__getattribute__",
   "__getitem__", "__setitem__", "__delitem__", "__contains__",
   "__len__", "__iter__", "__reversed__", "__eq__", "__ne__",
   "__lt__", "__le__", "__gt__", "__ge__", "__hash__",
   "__repr__", "__str__", "__format__", "__sizeof__", "__dir__",
   "__reduce__", "__reduce_ex__", "__init_subclass__", "__subclasshook__",
   "__getnewargs__", "__getstate__", "__setstate__", "__deepcopy__",
   "__or__", "__ror__", "__ior__", "__class_getitem__"]

/-- The `__setattr__` method (lines 59–74): protected names raise
`AttributeError`, everything else is delegated to `__setitem__`. -/
def setAttr (fz : Bool) (d : PDict) (k : String) (v : PVal) : Except Err PDict :=
  if protectedNames.contains k then .error (.attributeProtected k)
  else setItem fz d k v

/-- Deletion.  `MinyDict` does not override `__delitem__` and aliases
`__delattr__ = dict.__delitem__` (line 29), so both `del d[k]` and
`del d.k` run the plain `dict` deletion: the `_frozen` flag (passed here
for comparison with the guarded mutators) is never consulted, and a
missing key raises `KeyError`. -/
def delItem (_fz : Bool) (d : PDict) (k : String) : Except Err PDict :=
  if hasKey d k then .ok (eraseD d k) else .error (.keyErr k)

/-- The `freeze` method (lines 138–142) applied to the entries of a
`MinyDict`: recurses into every `MinyDict` entry value (list elements are
not visited). -/
def freezeD (b : Bool) : PDict → PDict
  | .nil => .nil
  | .cons k v tl =>
    .cons k (match v with
             | .vminy _ e => .vminy b (freezeD b e)
             | v => v) (freezeD b tl)

/-- Item assignment `d[last] = v` at the end of a dot-resolution walk
(line 363).  On a `MinyDict` this is `__setitem__` (frozen check and value
coercion); on a plain dict it is the raw store; on any other object
Python raises `TypeError`. -/
def setAnyItem : PVal → String → PVal → Except Err PVal
  | .vdict e, k, v => .ok (.vdict (insertD e k v))
  | .vminy fz e, k, v => (setItem fz e k v).map (.vminy fz)
  | _, _, _ => .error .typeErr

mutual
/-- The `_resolve_dots` method (lines 323–365) on a `MinyDict` with frozen
flag `fz` and entries `d`: iterates over a snapshot of the keys.  Fuel is
decremented at every recursive call so that the recursion is structural;
`Err.fuelOut` marks exhaustion (no Python counterpart). -/
def resolveDots : Nat → Bool → PDict → Except Err PDict
  | 0, _, _ => .error .fuelOut
  | n+1, fz, d => resolveKeys n fz (keysD d) d

/-- One pass of the `_resolve_dots` loop over the remaining snapshot keys
`ks`, threading the current dictionary state `d`.  For each key: look the
value up (`__getitem__` is `dict.get`, so a missing key yields `None`);
if it is a `MinyDict`, resolve its dots recursively and re-store it via
`__setitem__` (which re-wraps it, unfrozen — the local variable `v` keeps
referencing the un-wrapped object); if the key contains a dot, walk the
sub-key path from `self` and delete the original compound key. -/
def resolveKeys : Nat → Bool → List String → PDict → Except Err PDict
  | _, _, [], d => .ok d
  | 0, _, _ :: _, _ => .error .fuelOut
  | n+1, fz, k :: ks, d => do
    let v := (lookupD d k).getD .vnone
    let (d1, v1) ← match v with
      | .vminy f e => do
          let e' ← resolveDots n f e
          let d1 ← setItem fz d k (.vminy f e')
          pure (d1, PVal.vminy f e')
      | v => pure (d, v)
    if containsChar '.' k then do
      let w ← walkPath n (.vminy fz d1) (pySplitDots k) v1
      match w with
      | .vminy _ d2 =>
          if hasKey d2 k then resolveKeys n fz ks (eraseD d2 k)
          else .error (.keyErr k)
      | _ => .error .typeErr
    else
      resolveKeys n fz ks d1

/-- The walk of lines 352–363: descend the sub-key path from `self`,
creating empty `MinyDict`s for missing intermediate keys, re-resolving
(and thereby re-wrapping) existing `MinyDict` intermediates, and finally
assigning the value at the leaf.  A non-dict intermediate makes Python
raise `TypeError` (on the indexing or on the item assignment).  Mutation
of the object walked into is modelled by writing the recursive result
back at its position without coercion. -/
def walkPath : Nat → PVal → List String → PVal → Except Err PVal
  | _, c, [], _ => .ok c
  | 0, _, _ :: _, _ => .error .fuelOut
  | _+1, c, [last], v => setAnyItem c last v
  | n+1, .vminy fz e, sk :: rest, v => do
    let e1 ← if hasKey e sk then pure e else setItem fz e sk (.vminy false .nil)
    match lookupD e1 sk with
    | some (.vminy f m) => do
        let m' ← resolveDots n f m
        let e2 ← setItem fz e1 sk (.vminy f m')
        let inner ← walkPath n (setItemCoerce (.vminy f m')) rest v
        .ok (.vminy fz (insertD e2 sk inner))
    | some other => do
        let inner ← walkPath n other rest v
        .ok (.vminy fz (insertD e1 sk inner))
    | none => .error .typeErr
  | n+1, .vdict e, sk :: rest, v => do
    let e1 := if hasKey e sk then e else insertD e sk (.vminy false .nil)
    match lookupD e1 sk with
    | some (.vminy f m) => do
        let m' ← resolveDots n f m
        let e2 := insertD e1 sk (.vminy f m')
        let inner ← walkPath n (.vminy f m') rest v
        .ok (.vdict (insertD e2 sk inner))
    | some other => do
        let inner ← walkPath n other rest v
        .ok (.vdict (insertD e1 sk inner))
    | none => .error .typeErr
  | _+1, _, _ :: _, _ => .error .typeErr
end

/-- The `_resolve_nests` method (lines 314–321) on a `MinyDict` with
frozen flag `fz`: every plain-dict or `MinyDict` entry value is rebuilt
as a fresh unfrozen `MinyDict` (the rebuild-plus-recursion of the source
collapses to `ofDict`) and re-stored through `__setitem__`, which raises
`AttributeError` when `fz` is set; other values are not re-stored. -/
def resolveNests (fz : Bool) : PDict → Except Err PDict
  | .nil => .ok .nil
  | .cons k v tl =>
    match v with
    | .vdict e =>
        if fz then .error .attributeFrozen
        else (resolveNests fz tl).map (.cons k (.vminy false (ofDict e)))
    | .vminy _ e =>
        if fz then .error .attributeFrozen
        else (resolveNests fz tl).map (.cons k (.vminy false (ofDict e)))
    | v => (resolveNests fz tl).map (.cons k v)

/-- The `resolve` method (lines 304–312): `_resolve_nests` then
`_resolve_dots`, on a `MinyDict` with frozen flag `fz`. -/
def resolve (fuel : Nat) (fz : Bool) (d : PDict) : Except Err PDict := do
  let d1 ← resolveNests fz d
  resolveDots fuel fz d1

/-- The `update` method (lines 93–114) of a `MinyDict` with frozen flag
`fz` and entries `st`, applied to one positional mapping `other` (the
source also accepts keyword entries, merged the same way, and raises for
more than one positional argument; no claim concerns those paths).  The
method mutates in place while iterating, so on error the state reached at
the raise is returned alongside the error.  Per key: the strict check
first; then plain assignment through `__setitem__` unless both the
existing and the incoming value are dicts, in which case the nested
`MinyDict` is updated recursively in place (a raw-dict existing value
would receive `dict.update(v, strict=...)`, a `TypeError`). -/
def update : Nat → Bool → PDict → PDict → Bool → Except (Err × PDict) PDict
  | _, _, st, .nil, _ => .ok st
  | 0, _, st, .cons _ _ _, _ => .error (.fuelOut, st)
  | n+1, fz, st, .cons k v tl, strict =>
    if strict && !hasKey st k then .error (.keyErr k, st)
    else
      match lookupD st k, v with
      | some (.vminy f e), .vminy _ oe =>
          (match update n f e oe strict with
           | .ok e' => update n fz (insertD st k (.vminy f e')) tl strict
           | .error (er, e'') => .error (er, insertD st k (.vminy f e'')))
      | some (.vminy f e), .vdict oe =>
          (match update n f e oe strict with
           | .ok e' => update n fz (insertD st k (.vminy f e')) tl strict
           | .error (er, e'') => .error (er, insertD st k (.vminy f e'')))
      | some (.vdict _), .vminy _ _ => .error (.typeErr, st)
      | some (.vdict _), .vdict _ => .error (.typeErr, st)
      | _, _ =>
          match setItem fz st k v with
          | .ok st' => update n fz st' tl strict
          | .error er => .error (er, st)

end MinyDict

/-! ## The argument parser (src/minydra/parser.py) -/

namespace Parser

/-- Character class `\w` of the environment-variable pattern
`\$([\w_]+)` (ASCII part). -/
def isWordChar (c : Char) : Bool := c.isAlphanum || c = '_'

/-- Scan of `re.findall(r"\$([\w_]+)", value)` (line 371): every `$`
followed by a non-empty maximal run of word characters yields that run;
matches are non-overlapping and scanned left to right.  The second
argument accumulates the current run (`none` while outside a match). -/
def scanVars : List Char → Option (List Char) → List String
  | [], none => []
  | [], some acc => if acc.isEmpty then [] else [⟨acc.reverse⟩]
  | c :: cs, none => if c = '$' then scanVars cs (some []) else scanVars cs none
  | c :: cs, some acc =>
    if isWordChar c then scanVars cs (some (c :: acc))
    else
      (if acc.isEmpty then [] else [(⟨acc.reverse⟩ : String)]) ++
        (if c = '$' then scanVars cs (some []) else scanVars cs none)

/-- Warning emitted by `set_env` for a missing variable, as printed by
`Parser.warn` (lines 374–379 and 385–394). -/
def envWarnText (var : String) : String :=
  "[Minydra Warning] Detected variable $" ++ var ++
    ", but could not find it in the environment. Keeping raw value $" ++ var ++ "."

/-- Loop body of `set_env` (lines 372–381) over the found variable names:
a hit replaces every occurrence of `$NAME`; a miss warns when `warn_env`
is set, but when `warn_env` is unset the `else` branch runs
`value.replace("$" + arg_var, None)`, a `TypeError` (`str.replace`
rejects `None`). -/
def envSubstGo (env : String → Option String) (warnEnv : Bool) :
    List String → String → List String → Except Err (String × List String)
  | [], cur, warns => .ok (cur, warns)
  | var :: rest, cur, warns =>
    match env var with
    | none =>
        if warnEnv then envSubstGo env warnEnv rest cur (warns ++ [envWarnText var])
        else .error .typeErr
    | some ev => envSubstGo env warnEnv rest (pyReplace cur ("$" ++ var) ev) warns

/-- The `set_env` static method (lines 356–383): non-strings pass through;
for a string, find the `$IDENTIFIER` references and substitute them from
the environment `env` (modelling `os.getenv`).  Returns the rewritten
value together with the warnings printed. -/
def setEnv (env : String → Option String) (warnEnv : Bool) :
    PVal → Except Err (PVal × List String)
  | .vstr s =>
      (envSubstGo env warnEnv (scanVars s.data none) s []).map fun (r, w) => (.vstr r, w)
  | v => .ok (v, [])

/-- Join with `"="`, modelling `"=".join(values[1:])` (line 424). -/
def joinEq : List String → String
  | [] => ""
  | [s] => s
  | s :: rest => s ++ "=" ++ joinEq rest

/-- Key/value extraction for one token (lines 421–432): `key=value`
splits on the first `=` (the remainder is rejoined), `-flag` maps to
`False`, a bare token maps to `True`; keys and values are stripped. -/
def tokKV (arg : String) : String × PVal :=
  if containsChar '=' arg then
    match pySplit "=" arg with
    | [] => (pyTrim arg, .vstr "")
    | k :: rest => (pyTrim k, .vstr (pyTrim (joinEq rest)))
  else if startsWithChar '-' arg then (pyTrim ⟨arg.data.drop 1⟩, .vbool false)
  else (pyTrim arg, .vbool true)

/-- Key under which a token is stored by `map_argv`. -/
def tokKey (arg : String) : String := (tokKV arg).1

/-- Warning printed for an allowed overwrite (lines 439–441). -/
def overwriteWarnText (k : String) : String :=
  "[Minydra Warning] Repeated argument " ++ k ++ ", overwriting previous value."

/-- Loop of `map_argv` (lines 419–443), threading the dictionary built so
far and the warnings printed: a repeated key raises
`MinydraWrongArgumentException` when overwrites are disallowed, warns when
they are allowed and warnings are on, and the last value always wins. -/
def mapArgvGo (allow warnOv : Bool) :
    List String → PDict → List String → Except Err (PDict × List String)
  | [], acc, warns => .ok (acc, warns)
  | arg :: rest, acc, warns =>
    let (k, v) := tokKV arg
    if hasKey acc k then
      if !allow then .error (.duplicateArgument k)
      else mapArgvGo allow warnOv rest (insertD acc k v)
        (warns ++ if warnOv then [overwriteWarnText k] else [])
    else mapArgvGo allow warnOv rest (insertD acc k v) warns

/-- The `map_argv` static method (lines 396–445). -/
def mapArgv (args : List String) (allow warnOv : Bool) :
    Except Err (PDict × List String) :=
  mapArgvGo allow warnOv args .nil []

/-- Longest digit prefix of a character list. -/
def takeDigits : List Char → List Char × List Char
  | [] => ([], [])
  | c :: cs =>
    if c.isDigit then
      match takeDigits cs with
      | (ds, r) => (c :: ds, r)
    else ([], c :: cs)

/-- Exponent / end-of-string tail of a Python float literal: given the
accumulated decimal `sign * mant / 10 ^ e0`, accept the end of input or
an `e`/`E` exponent part. -/
def pyfloatExp (sign : Int) (mant : Nat) (e0 : Nat) : List Char → Option (Int × Nat)
  | [] => some (sign * mant, e0)
  | c :: r =>
    if c = 'e' || c = 'E' then
      let (esign, r2) : Int × List Char :=
        match r with
        | '+' :: rr => (1, rr)
        | '-' :: rr => (-1, rr)
        | rr => (1, rr)
      match takeDigits r2 with
      | ([], _) => none
      | (_, _ :: _) => none
      | (es, []) =>
          let ev := digitsVal es
          if esign < 0 then some (sign * mant, e0 + ev)
          else if e0 ≤ ev then some (sign * mant * (10 ^ (ev - e0) : Nat), 0)
          else some (sign * mant, e0 - ev)
    else none

/-- Mantissa of a Python float literal after the optional sign. -/
def pyfloatMant (sign : Int) (r : List Char) : Option (Int × Nat) :=
  match takeDigits r with
  | (ip, r1) =>
    match r1 with
    | '.' :: r2 =>
      match takeDigits r2 with
      | (fp, r3) =>
        if ip.isEmpty && fp.isEmpty then none
        else pyfloatExp sign (digitsVal (ip ++ fp)) fp.length r3
    | _ => if ip.isEmpty then none else pyfloatExp sign (digitsVal ip) 0 r1

/-- Python `float(s)` as an exact decimal `mant / 10 ^ exp`.  Modelled
grammar: optional surrounding whitespace, optional sign, digits with an
optional single point (at least one digit overall), optional `e`/`E`
exponent with optional sign.  Python additionally accepts `inf`/`nan`
spellings and underscore digit separators, and rounds the result to
binary64; no claim depends on those. -/
def pyfloat (s : String) : Option (Int × Nat) :=
  match (pyTrim s).data with
  | '+' :: r => pyfloatMant 1 r
  | '-' :: r => pyfloatMant (-1) r
  | r => pyfloatMant 1 r

/-- Python `int(x)` on a float: truncation toward zero. -/
def truncDec (m : Int) (e : Nat) : Int :=
  if 0 ≤ m then ((m.toNat / 10 ^ e : Nat) : Int)
  else -(((-m).toNat / 10 ^ e : Nat) : Int)

/-- The `known_types` set (lines 21–26). -/
def knownTypes : List String := ["bool", "int", "float", "str"]

/-- The `type_separator` (line 28). -/
def typeSeparator : String := "___"

/-- The `_force_type` static method (lines 250–271) on a string value:
`bool(value)` is string truthiness (empty is falsy), `int(value)` is the
float-then-truncate path `int(float(value))` (a non-numeric string raises
`ValueError`), `float(value)` parses, `str(value)` is the identity; an
unknown type string falls off the end of the Python function and returns
`None`. -/
def forceType (s : String) (ts : String) : Except Err PVal :=
  if ts = "bool" then .ok (.vbool (!(s == "")))
  else if ts = "int" then
    match pyfloat s with
    | some (m, e) => .ok (.vint (truncDec m e))
    | none => .error .valueErr
  else if ts = "float" then
    match pyfloat s with
    | some (m, e) => .ok (.vfloat m e)
    | none => .error .valueErr
  else if ts = "str" then .ok (.vstr s)
  else .ok .vnone

/-- Whitespace skipping inside literals. -/
def skipWs (cs : List Char) : List Char := cs.dropWhile Char.isWhitespace

/-- Characters that may occur in a numeric literal token. -/
def isNumChar (c : Char) : Bool :=
  c.isDigit || c = '.' || c = 'e' || c = 'E' || c = '+' || c = '-'

/-- The single-quote character, written via its code point. -/
def quoteChar : Char := Char.ofNat 39

/-- Body of a quoted string literal up to the closing quote `q` (no escape
sequences; none occur in the use sites of the claims). -/
def litStrGo (q : Char) : List Char → Option (List Char × List Char)
  | [] => none
  | c :: cs =>
    if c = q then some ([], cs)
    else (litStrGo q cs).map fun (s, r) => (c :: s, r)

mutual
/-- Modelled subset of `ast.literal_eval` (used at lines 315 and 320): a
value is a signed int or float literal, a quoted string, `True`, `False`,
`None`, a list, or a dict with quoted-string keys.  Python's evaluator
also accepts tuples, sets, non-string dict keys, and escape sequences;
no claim exercises those, and unsupported input is mapped to
`Err.valueErr` like any malformed literal. -/
def litVal : Nat → List Char → Except Err (PVal × List Char)
  | 0, _ => .error .fuelOut
  | n+1, cs =>
    match skipWs cs with
    | [] => .error .valueErr
    | '[' :: r => (litList n r).map fun (xs, r') => (.vlist xs, r')
    | '{' :: r => (litDict n r).map fun (d, r') => (.vdict d, r')
    | c :: r =>
      if c = quoteChar || c = '"' then
        match litStrGo c r with
        | some (s, r') => .ok (.vstr ⟨s⟩, r')
        | none => .error .valueErr
      else if ("True".data).isPrefixOf (c :: r) then .ok (.vbool true, (c :: r).drop 4)
      else if ("False".data).isPrefixOf (c :: r) then .ok (.vbool false, (c :: r).drop 5)
      else if ("None".data).isPrefixOf (c :: r) then .ok (.vnone, (c :: r).drop 4)
      else
        match (c :: r).takeWhile isNumChar, (c :: r).dropWhile isNumChar with
        | [], _ => .error .valueErr
        | tok, rest =>
          if tok.contains '.' || tok.contains 'e' || tok.contains 'E' then
            match pyfloat ⟨tok⟩ with
            | some (m, e) => .ok (.vfloat m e, rest)
            | none => .error .valueErr
          else
            match pyfloat ⟨tok⟩ with
            | some (m, _) => .ok (.vint m, rest)
            | none => .error .valueErr

/-- List elements after an opening bracket. -/
def litList : Nat → List Char → Except Err (PList × List Char)
  | 0, _ => .error .fuelOut
  | n+1, cs =>
    match skipWs cs with
    | ']' :: r => .ok (.nil, r)
    | _ => do
      let (v, r1) ← litVal n cs
      match skipWs r1 with
      | ',' :: r2 => (litList n r2).map fun (xs, r') => (.cons v xs, r')
      | ']' :: r2 => .ok (.cons v .nil, r2)
      | _ => .error .valueErr

/-- Dict entries after an opening brace (quoted-string keys only, see
`litVal`). -/
def litDict : Nat → List Char → Except Err (PDict × List Char)
  | 0, _ => .error .fuelOut
  | n+1, cs =>
    match skipWs cs with
    | '}' :: r => .ok (.nil, r)
    | c :: r =>
      if c = quoteChar || c = '"' then
        match litStrGo c r with
        | some (s, r1) =>
          (match skipWs r1 with
           | ':' :: r2 => do
             let (v, r3) ← litVal n r2
             match skipWs r3 with
             | ',' :: r4 => (litDict n r4).map fun (d, r') => (.cons (⟨s⟩ : String) v d, r')
             | '}' :: r4 => .ok (.cons (⟨s⟩ : String) v .nil, r4)
             | _ => .error .valueErr
           | _ => .error .valueErr)
        | none => .error .valueErr
      else .error .valueErr
    | [] => .error .valueErr
end

/-- The `ast.literal_eval(arg)` call: parse the whole string as one
literal with no residue. -/
def literalEval (s : String) : Except Err PVal := do
  let (v, rest) ← litVal (s.data.length + 1) s.data
  if (skipWs rest).isEmpty then .ok v else .error .valueErr

/-- Python `s.endswith(c)` for one character. -/
def endsWithChar (c : Char) (s : String) : Bool :=
  match s.data.reverse with
  | [] => false
  | d :: _ => d = c

mutual
/-- The `_infer_arg_type` static method (lines 273–323).  A non-string is
returned as is (this check precedes the forced-type check); a forced type
goes straight to `_force_type`; otherwise infer in order: pure digits →
int, float parse → float, case-insensitive true/false → bool,
bracket-delimited → literal list with elementwise recursion,
brace-delimited → literal dict with recursion on keys and values; else
the string itself. -/
def inferArgType : Nat → PVal → Option String → Except Err PVal
  | 0, _, _ => .error .fuelOut
  | _+1, .vstr s, some t => forceType s t
  | n+1, .vstr s, none =>
      if pyIsDigit s then .ok (.vint (digitsVal s.data))
      else
        match pyfloat s with
        | some (m, e) => .ok (.vfloat m e)
        | none =>
          if pyLower s == "true" then .ok (.vbool true)
          else if pyLower s == "false" then .ok (.vbool false)
          else if startsWithChar '[' s && endsWithChar ']' s then
            match literalEval s with
            | .ok (.vlist xs) => (inferL n xs).map .vlist
            | .ok _ => .error .valueErr
            | .error e => .error e
          else if startsWithChar '{' s && endsWithChar '}' s then
            match literalEval s with
            | .ok (.vdict d) => (inferD n d).map .vdict
            | .ok _ => .error .valueErr
            | .error e => .error e
          else .ok (.vstr s)
  | _+1, v, _ => .ok v

/-- Elementwise inference over a literal list. -/
def inferL : Nat → PList → Except Err PList
  | 0, _ => .error .fuelOut
  | _+1, .nil => .ok .nil
  | n+1, .cons v tl => do
    let v' ← inferArgType n v none
    let tl' ← inferL n tl
    .ok (.cons v' tl')

/-- Inference over a literal dict: both keys and values are inferred.  An
inferred key that is no longer a string (for example `"1"` becoming the
int `1`) leaves the string-keyed model and is mapped to `Err.valueErr`;
no claim exercises that path. -/
def inferD : Nat → PDict → Except Err PDict
  | 0, _ => .error .fuelOut
  | _+1, .nil => .ok .nil
  | n+1, .cons k v tl => do
    let k' ← inferArgType n (.vstr k) none
    let v' ← inferArgType n v none
    let tl' ← inferD n tl
    match k' with
    | .vstr ks => .ok (.cons ks v' tl')
    | _ => .error .valueErr
end

/-- Key splitting of `parse_arg_types` (lines 347–352): when the key
contains the `"___"` separator, `k.split(Parser.type_separator)` is
unpacked into exactly two names — three or more parts raise `ValueError`
— and a recognised type suffix is stripped from the stored key. -/
def pyStripKey (k : String) : Except Err (String × Option String) :=
  match pySplit typeSeparator k with
  | [_] => .ok (k, none)
  | [a, b] => if knownTypes.contains b then .ok (a, some b) else .ok (k, none)
  | _ => .error .valueErr

/-- Loop of `parse_arg_types` over the remaining entries, threading the
`typed` output dictionary and the warnings printed so far. -/
def parseArgTypesGo (fuel : Nat) (env : String → Option String) (pe we : Bool) :
    PDict → PDict → List String → Except Err (PDict × List String)
  | .nil, typed, warns => .ok (typed, warns)
  | .cons k v tl, typed, warns => do
    let (v1, w1) ← if pe then setEnv env we v else pure (v, [])
    let (k1, ts) ← pyStripKey k
    let r ← inferArgType fuel v1 ts
    parseArgTypesGo fuel env pe we tl (insertD typed k1 r) (warns ++ w1)

/-- The `parse_arg_types` static method (lines 325–354): per entry, apply
environment substitution when `parse_env` is set, split a forced type off
the key, and infer the value's type. -/
def parseArgTypes (fuel : Nat) (env : String → Option String) (args : PDict)
    (pe we : Bool) : Except Err (PDict × List String) :=
  parseArgTypesGo fuel env pe we args .nil []

end Parser

/-! ## Structural predicates used by the claims -/

mutual
/-- Does a value contain a raw (non-`MinyDict`) mapping anywhere? -/
def hasRawV : PVal → Bool
  | .vdict _ => true
  | .vminy _ d => hasRawD d
  | .vlist xs => hasRawL xs
  | _ => false
/-- List version of `hasRawV`. -/
def hasRawL : PList → Bool
  | .nil => false
  | .cons v tl => hasRawV v || hasRawL tl
/-- Entry version of `hasRawV`. -/
def hasRawD : PDict → Bool
  | .nil => false
  | .cons _ v tl => hasRawV v || hasRawD tl
end

mutual
/-- Is a value plain data — scalars, raw mappings and lists, with no
`MinyDict` anywhere (the shape of freshly deserialised or literal
input)? -/
def plainV : PVal → Bool
  | .vminy _ _ => false
  | .vdict d => plainD d
  | .vlist xs => plainL xs
  | _ => true
/-- List version of `plainV`. -/
def plainL : PList → Bool
  | .nil => true
  | .cons v tl => plainV v && plainL tl
/-- Entry version of `plainV`. -/
def plainD : PDict → Bool
  | .nil => true
  | .cons _ v tl => plainV v && plainD tl
end

/-- Is every `MinyDict` reachable through entry values (the values
`freeze` visits) frozen? -/
def allMinyFrozenD : PDict → Bool
  | .nil => true
  | .cons _ v tl =>
    (match v with
     | .vminy f e => f && allMinyFrozenD e
     | _ => true) && allMinyFrozenD tl

/-- Concatenation of entry lists. -/
def appendD : PDict → PDict → PDict
  | .nil, d => d
  | .cons k v tl, d => .cons k v (appendD tl d)

/-- Entries as a list, used to state per-entry invariants. -/
def toL : PDict → List (String × PVal)
  | .nil => []
  | .cons k v tl => (k, v) :: toL tl

mutual
/-- Is a value fixed by the per-entry construction coercion
`MinyDict.entryCoerce` (no raw dict anywhere it looks, every `MinyDict`
already unfrozen and itself fixed)? -/
def mfixV : PVal → Bool
  | .vdict _ => false
  | .vminy f e => !f && mfixD e
  | .vlist xs => mfixL xs
  | _ => true
/-- Elementwise `MinyDict.hook` fixedness (a `MinyDict` inside a list is
left untouched whatever it contains). -/
def mfixE : PVal → Bool
  | .vdict _ => false
  | .vminy _ _ => true
  | .vlist xs => mfixL xs
  | _ => true
/-- List version of `mfixE`. -/
def mfixL : PList → Bool
  | .nil => true
  | .cons v tl => mfixE v && mfixL tl
/-- Entry version of `mfixV`. -/
def mfixD : PDict → Bool
  | .nil => true
  | .cons _ v tl => mfixV v && mfixD tl
end

mutual
/-- No raw dict occurs as an entry value, recursively through `MinyDict`
entry values (list contents are exempt: dot resolution never inspects
them). -/
def nrV : PVal → Bool
  | .vdict _ => false
  | .vminy _ e => nrD e
  | _ => true
/-- Entry version of `nrV`. -/
def nrD : PDict → Bool
  | .nil => true
  | .cons _ v tl => nrV v && nrD tl
end

mutual
/-- Dot-freeness: every key reachable through `MinyDict` entry values is
free of the dot delimiter, and no raw dict occurs as an entry value
(list contents exempt). -/
def dfV : PVal → Bool
  | .vdict _ => false
  | .vminy _ e => dfD e
  | _ => true
/-- Entry version of `dfV`. -/
def dfD : PDict → Bool
  | .nil => true
  | .cons k v tl => !(containsChar '.' k) && dfV v && dfD tl
end

/-- Shape of a fully dot-resolved top level: keys are dot-free and every
dict-like entry value is internally dot-free; a top-level list value is
unconstrained (neither resolution phase ever rewrites it in place). -/
def outV : PVal → Bool
  | .vdict e => dfD e
  | .vminy _ e => dfD e
  | _ => true
/-- Entry version of `outV`. -/
def outD : PDict → Bool
  | .nil => true
  | .cons k v tl => !(containsChar '.' k) && outV v && outD tl

mutual
/-- State on which one `_resolve_dots` pass is the identity: keys
dot-free, no raw dict values, and every `MinyDict` value unfrozen,
construction-fixed and dot-free — and, when the surrounding `MinyDict` is
frozen (`fz`), no `MinyDict` values at all (re-storing one through the
frozen `__setitem__` would raise). -/
def goodRunV (fz : Bool) : PVal → Bool
  | .vdict _ => false
  | .vminy f e => !fz && !f && mfixD e && dfD e
  | _ => true
/-- Entry version of `goodRunV`. -/
def goodRunD (fz : Bool) : PDict → Bool
  | .nil => true
  | .cons k v tl => !(containsChar '.' k) && goodRunV fz v && goodRunD fz tl
end

mutual
/-- Fuel-requirement bound for an identity `_resolve_dots` pass. -/
def mNV : PVal → Nat
  | .vminy _ e => 2 + 2 * mND e
  | .vdict e => 2 + 2 * mND e
  | _ => 0
/-- Entry version of `mNV`. -/
def mND : PDict → Nat
  | .nil => 0
  | .cons _ v tl => 1 + mNV v + mND tl
end

/-- Fuel that suffices to re-resolve an already resolved dictionary. -/
def idFuel (d : PDict) : Nat := (keysD d).length + 2 * mND d + 1

mutual
/-- Keys are pairwise distinct at every dict level reachable through
entry values (list contents exempt) — the invariant every Python dict
enjoys by construction, stated on the model's entry lists. -/
def ndV : PVal → Prop
  | .vminy _ e => ndE e ∧ (keysD e).Nodup
  | .vdict e => ndE e ∧ (keysD e).Nodup
  | _ => True
/-- Entry part of `ndV`. -/
def ndE : PDict → Prop
  | .nil => True
  | .cons _ v tl => ndV v ∧ ndE tl
end

/-- Well-formedness of a dictionary: distinct keys here and recursively
in every dict-like entry value. -/
def ndD (d : PDict) : Prop := ndE d ∧ (keysD d).Nodup

mutual
/-- Structural equality of values up to the `dict`/`MinyDict` distinction
and the frozen flag.  Python's `==` (which `MinyDict` inherits from
`dict`) identifies a `MinyDict` with an equal-content `dict` and ignores
`_frozen`; it is additionally order-insensitive on keys and identifies
numbers across types, so this relation is a sound strengthening used to
*confirm* equality claims. -/
def pyStructEqV : PVal → PVal → Bool
  | .vnone, .vnone => true
  | .vbool a, .vbool b => a == b
  | .vint a, .vint b => a == b
  | .vfloat m e, .vfloat m' e' => m == m' && e == e'
  | .vstr a, .vstr b => a == b
  | .vlist xs, .vlist ys => pyStructEqL xs ys
  | .vdict d, .vdict d' => pyStructEqD d d'
  | .vdict d, .vminy _ d' => pyStructEqD d d'
  | .vminy _ d, .vdict d' => pyStructEqD d d'
  | .vminy _ d, .vminy _ d' => pyStructEqD d d'
  | _, _ => false
/-- List version of `pyStructEqV`. -/
def pyStructEqL : PList → PList → Bool
  | .nil, .nil => true
  | .cons v tl, .cons v' tl' => pyStructEqV v v' && pyStructEqL tl tl'
  | _, _ => false
/-- Entry version of `pyStructEqV` (same keys in the same order). -/
def pyStructEqD : PDict → PDict → Bool
  | .nil, .nil => true
  | .cons k v tl, .cons k' v' tl' => k == k' && pyStructEqV v v' && pyStructEqD tl tl'
  | _, _ => false
end

/-! ## Supporting lemmas -/

@[simp] theorem exceptPure {α : Type} (a : α) :
    (pure a : Except Err α) = .ok a := rfl

@[simp] theorem exceptBind_ok {α β : Type} (a : α) (f : α → Except Err β) :
    (Except.ok a : Except Err α) >>= f = f a := rfl

@[simp] theorem exceptBind_error {α β : Type} (e : Err) (f : α → Except Err β) :
    (Except.error e : Except Err α) >>= f = .error e := rfl

@[simp] theorem exceptMap_ok {α β : Type} (a : α) (f : α → β) :
    Except.map f (Except.ok a : Except Err α) = .ok (f a) := rfl

@[simp] theorem exceptMap_error {α β : Type} (e : Err) (f : α → β) :
    Except.map f (Except.error e : Except Err α) = .error e := rfl

theorem envSubstGo_none_warn (vars : List String) :
    ∀ cur warns, Parser.envSubstGo (fun _ => none) true vars cur warns
      = .ok (cur, warns ++ vars.map Parser.envWarnText) := by
  induction vars with
  | nil => intro cur warns; simp [Parser.envSubstGo]
  | cons v rest ih => intro cur warns; simp [Parser.envSubstGo, ih]

mutual
theorem plain_ofDict_noRaw : ∀ d, plainD d = true → hasRawD (MinyDict.ofDict d) = false
  | .nil, _ => rfl
  | .cons k v tl, h => by
    simp only [plainD, Bool.and_eq_true] at h
    simp [MinyDict.ofDict, hasRawD, plain_entryCoerce_noRaw v h.1, plain_ofDict_noRaw tl h.2]
theorem plain_entryCoerce_noRaw : ∀ v, plainV v = true → hasRawV (MinyDict.entryCoerce v) = false
  | .vnone, _ => rfl
  | .vbool _, _ => rfl
  | .vint _, _ => rfl
  | .vfloat _ _, _ => rfl
  | .vstr _, _ => rfl
  | .vlist xs, h => by
    simp only [plainV] at h
    simp [MinyDict.entryCoerce, hasRawV, plain_hookL_noRaw xs h]
  | .vdict d, h => by
    simp only [plainV] at h
    simp [MinyDict.entryCoerce, hasRawV, plain_ofDict_noRaw d h]
  | .vminy _ _, h => by simp [plainV] at h
theorem plain_hookL_noRaw : ∀ xs, plainL xs = true → hasRawL (MinyDict.hookL xs) = false
  | .nil, _ => rfl
  | .cons v tl, h => by
    simp only [plainL, Bool.and_eq_true] at h
    simp [MinyDict.hookL, hasRawL, plain_hook_noRaw v h.1, plain_hookL_noRaw tl h.2]
theorem plain_hook_noRaw : ∀ v, plainV v = true → hasRawV (MinyDict.hook v) = false
  | .vnone, _ => rfl
  | .vbool _, _ => rfl
  | .vint _, _ => rfl
  | .vfloat _ _, _ => rfl
  | .vstr _, _ => rfl
  | .vlist xs, h => by
    simp only [plainV] at h
    simp [MinyDict.hook, hasRawV, plain_hookL_noRaw xs h]
  | .vdict d, h => by
    simp only [plainV] at h
    simp [MinyDict.hook, hasRawV, plain_ofDict_noRaw d h]
  | .vminy _ _, h => by simp [plainV] at h
end

theorem freezeD_allFrozen : ∀ d, allMinyFrozenD (MinyDict.freezeD true d) = true
  | .nil => rfl
  | .cons k v tl => by
    cases v <;>
      simp [MinyDict.freezeD, allMinyFrozenD, freezeD_allFrozen tl]
    case vminy f e => exact freezeD_allFrozen e

theorem splitGo_ne_nil (sep : List Char) :
    ∀ fuel acc cs, splitGo sep fuel acc cs ≠ [] := by
  intro fuel
  induction fuel with
  | zero => intro acc cs; cases cs <;> simp [splitGo]
  | succ n ih =>
    intro acc cs
    cases cs with
    | nil => simp [splitGo]
    | cons c cs =>
      simp only [splitGo]
      split
      · simp
      · exact ih _ _

theorem pySplit_ne_nil (sep s : String) : pySplit sep s ≠ [] := by
  unfold pySplit
  split
  · simp
  · simp [splitGo_ne_nil]

theorem lookup_insert : ∀ (d : PDict) (k : String) (v : PVal) (x : String),
    lookupD (insertD d k v) x = if k = x then some v else lookupD d x
  | .nil, k, v, x => by simp [insertD, lookupD]
  | .cons k' v' tl, k, v, x => by
    by_cases h1 : k' = k
    · subst h1
      by_cases h2 : k' = x <;> simp [insertD, lookupD, h2]
    · by_cases h2 : k' = x
      · subst h2
        simp [insertD, lookupD, h1, Ne.symm h1]
      · simp [insertD, lookupD, h1, h2, lookup_insert tl k v x]

theorem hasKey_iff_mem : ∀ (d : PDict) (k : String), hasKey d k = true ↔ k ∈ keysD d
  | .nil, k => by simp [PDict.hasKey, lookupD, keysD]
  | .cons k' v' tl, k => by
    by_cases h : k' = k
    · subst h; simp [PDict.hasKey, lookupD, keysD]
    · simp [PDict.hasKey, lookupD, keysD, h, Ne.symm h]
      exact hasKey_iff_mem tl k

theorem keysD_insert_not_mem : ∀ (d : PDict) (k : String) (v : PVal),
    hasKey d k = false → keysD (insertD d k v) = keysD d ++ [k]
  | .nil, k, v, _ => by simp [insertD, keysD]
  | .cons k' v' tl, k, v, h => by
    have h' : k' ≠ k := by
      intro he; subst he; simp [PDict.hasKey, lookupD] at h
    have htl : hasKey tl k = false := by
      simpa [PDict.hasKey, lookupD, h'] using h
    simp [insertD, keysD, h', keysD_insert_not_mem tl k v htl]

theorem sizeD_insert : ∀ (d : PDict) (k : String) (v : PVal),
    PDict.sizeD (insertD d k v)
      = if hasKey d k then PDict.sizeD d else PDict.sizeD d + 1
  | .nil, k, v => by simp [insertD, PDict.sizeD, PDict.hasKey, lookupD]
  | .cons k' v' tl, k, v => by
    by_cases h : k' = k
    · subst h; simp [insertD, PDict.sizeD, PDict.hasKey, lookupD]
    · simp [insertD, PDict.sizeD, PDict.hasKey, lookupD, h, sizeD_insert tl k v,
        PDict.hasKey]
      by_cases htl : hasKey tl k <;> simp [PDict.hasKey] at htl <;> simp [htl]

theorem update_append : ∀ (n : Nat) (fz : Bool) (st pre post : PDict) (strict : Bool),
    MinyDict.update n fz st (appendD pre post) strict
      = match MinyDict.update n fz st pre strict with
        | .ok st' => MinyDict.update (n - PDict.sizeD pre) fz st' post strict
        | .error e => .error e
  | n, fz, st, .nil, post, strict => by
    simp [appendD, MinyDict.update, PDict.sizeD]
  | 0, fz, st, .cons k v tl, post, strict => by
    simp [appendD, MinyDict.update]
  | n+1, fz, st, .cons k v tl, post, strict => by
    have hsz : (n + 1) - PDict.sizeD (.cons k v tl) = n - PDict.sizeD tl := by
      simp only [PDict.sizeD]; omega
    simp only [appendD, MinyDict.update, hsz]
    split
    · rfl
    · split <;>
        first
          | rfl
          | (split <;> first | rfl | exact update_append n fz _ tl post strict)

theorem mem_toL_insertD : ∀ (d : PDict) (k : String) (v : PVal) (kv : String × PVal),
    kv ∈ toL (insertD d k v) → kv = (k, v) ∨ kv ∈ toL d
  | .nil, k, v, kv => by simp [insertD, toL]
  | .cons k' v' tl, k, v, kv => by
    by_cases h : k' = k
    · subst h
      simp only [insertD, if_true, ite_true, toL, List.mem_cons]
      rintro (h | h)
      · exact Or.inl h
      · exact Or.inr (Or.inr h)
    · simp only [insertD, h, if_false, ite_false, toL, List.mem_cons]
      rintro (h2 | h2)
      · exact Or.inr (Or.inl h2)
      · rcases mem_toL_insertD tl k v kv h2 with h3 | h3
        · exact Or.inl h3
        · exact Or.inr (Or.inr h3)

theorem mem_toL_eraseD : ∀ (d : PDict) (k : String) (kv : String × PVal),
    kv ∈ toL (eraseD d k) → kv ∈ toL d
  | .nil, k, kv => by simp [eraseD, toL]
  | .cons k' v' tl, k, kv => by
    by_cases h : k' = k
    · subst h
      simp only [eraseD, if_true, ite_true, toL, List.mem_cons]
      exact fun hh => Or.inr hh
    · simp only [eraseD, h, if_false, ite_false, toL, List.mem_cons]
      rintro (h2 | h2)
      · exact Or.inl h2
      · exact Or.inr (mem_toL_eraseD tl k kv h2)

theorem lookupD_mem_toL : ∀ (d : PDict) (k : String) (v : PVal),
    lookupD d k = some v → (k, v) ∈ toL d
  | .nil, k, v => by simp [lookupD]
  | .cons k' v' tl, k, v => by
    by_cases h : k' = k
    · subst h
      simp only [lookupD, if_true, ite_true, toL, List.mem_cons]
      exact fun hh => Or.inl (by simp [Option.some.inj hh])
    · simp only [lookupD, h, if_false, ite_false, toL, List.mem_cons]
      exact fun hh => Or.inr (lookupD_mem_toL tl k v hh)

theorem mem_toL_key : ∀ (d : PDict) (kv : String × PVal),
    kv ∈ toL d → kv.1 ∈ keysD d
  | .nil, kv => by simp [toL]
  | .cons k' v' tl, kv => by
    simp only [toL, List.mem_cons, keysD]
    rintro (h | h)
    · subst h; simp
    · simp [mem_toL_key tl kv h]

theorem key_lookupD : ∀ (d : PDict) (k : String),
    k ∈ keysD d → ∃ v, lookupD d k = some v
  | .nil, k => by simp [keysD]
  | .cons k' v' tl, k => by
    by_cases h : k' = k
    · subst h; exact fun _ => ⟨v', by simp [lookupD]⟩
    · simp only [keysD, List.mem_cons]
      rintro (h2 | h2)
      · exact absurd h2.symm h
      · simpa [lookupD, h] using key_lookupD tl k h2

theorem insertD_self : ∀ (d : PDict) (k : String) (v : PVal),
    lookupD d k = some v → insertD d k v = d
  | .nil, k, v => by simp [lookupD]
  | .cons k' v' tl, k, v => by
    by_cases h : k' = k
    · subst h
      simp only [lookupD, if_true, ite_true, insertD]
      exact fun hh => by rw [Option.some.inj hh]
    · simp only [lookupD, h, if_false, ite_false, insertD]
      exact fun hh => by rw [insertD_self tl k v hh]

theorem nrD_iff : ∀ (d : PDict), nrD d = true ↔ ∀ kv ∈ toL d, nrV kv.2 = true
  | .nil => by simp [nrD, toL]
  | .cons k v tl => by
    simp only [nrD, Bool.and_eq_true, toL, List.mem_cons]
    rw [nrD_iff tl]
    constructor
    · rintro ⟨h1, h2⟩ kv hkv
      rcases hkv with h | h
      · subst h; exact h1
      · exact h2 kv h
    · intro h
      exact ⟨h (k, v) (Or.inl rfl), fun kv hh => h kv (Or.inr hh)⟩

theorem dfD_iff : ∀ (d : PDict),
    dfD d = true ↔ ∀ kv ∈ toL d, containsChar '.' kv.1 = false ∧ dfV kv.2 = true
  | .nil => by simp [dfD, toL]
  | .cons k v tl => by
    simp only [dfD, Bool.and_eq_true, toL, List.mem_cons, Bool.not_eq_true']
    rw [dfD_iff tl]
    constructor
    · rintro ⟨⟨h1, h2⟩, h3⟩ kv hkv
      rcases hkv with h | h
      · subst h; exact ⟨h1, h2⟩
      · exact h3 kv h
    · intro h
      refine ⟨⟨(h (k, v) (Or.inl rfl)).1, (h (k, v) (Or.inl rfl)).2⟩, ?_⟩
      exact fun kv hh => h kv (Or.inr hh)

theorem outD_iff : ∀ (d : PDict),
    outD d = true ↔ ∀ kv ∈ toL d, containsChar '.' kv.1 = false ∧ outV kv.2 = true
  | .nil => by simp [outD, toL]
  | .cons k v tl => by
    simp only [outD, Bool.and_eq_true, toL, List.mem_cons, Bool.not_eq_true']
    rw [outD_iff tl]
    constructor
    · rintro ⟨⟨h1, h2⟩, h3⟩ kv hkv
      rcases hkv with h | h
      · subst h; exact ⟨h1, h2⟩
      · exact h3 kv h
    · intro h
      refine ⟨⟨(h (k, v) (Or.inl rfl)).1, (h (k, v) (Or.inl rfl)).2⟩, ?_⟩
      exact fun kv hh => h kv (Or.inr hh)

theorem goodRunD_iff : ∀ (fz : Bool) (d : PDict),
    goodRunD fz d = true
      ↔ ∀ kv ∈ toL d, containsChar '.' kv.1 = false ∧ goodRunV fz kv.2 = true
  | fz, .nil => by simp [goodRunD, toL]
  | fz, .cons k v tl => by
    simp only [goodRunD, Bool.and_eq_true, toL, List.mem_cons, Bool.not_eq_true']
    rw [goodRunD_iff fz tl]
    constructor
    · rintro ⟨⟨h1, h2⟩, h3⟩ kv hkv
      rcases hkv with h | h
      · subst h; exact ⟨h1, h2⟩
      · exact h3 kv h
    · intro h
      refine ⟨⟨(h (k, v) (Or.inl rfl)).1, (h (k, v) (Or.inl rfl)).2⟩, ?_⟩
      exact fun kv hh => h kv (Or.inr hh)

mutual
theorem mfixD_ofDict_eq : ∀ d, mfixD d = true → MinyDict.ofDict d = d
  | .nil, _ => rfl
  | .cons k v tl, h => by
    simp only [mfixD, Bool.and_eq_true] at h
    simp [MinyDict.ofDict, mfixV_entryCoerce_eq v h.1, mfixD_ofDict_eq tl h.2]
theorem mfixV_entryCoerce_eq : ∀ v, mfixV v = true → MinyDict.entryCoerce v = v
  | .vnone, _ => rfl
  | .vbool _, _ => rfl
  | .vint _, _ => rfl
  | .vfloat _ _, _ => rfl
  | .vstr _, _ => rfl
  | .vlist xs, h => by
    simp only [mfixV] at h
    simp [MinyDict.entryCoerce, mfixL_hookL_eq xs h]
  | .vdict d, h => by simp [mfixV] at h
  | .vminy f e, h => by
    simp only [mfixV, Bool.and_eq_true, Bool.not_eq_true'] at h
    simp [MinyDict.entryCoerce, h.1, mfixD_ofDict_eq e h.2]
theorem mfixL_hookL_eq : ∀ xs, mfixL xs = true → MinyDict.hookL xs = xs
  | .nil, _ => rfl
  | .cons v tl, h => by
    simp only [mfixL, Bool.and_eq_true] at h
    simp [MinyDict.hookL, mfixE_hook_eq v h.1, mfixL_hookL_eq tl h.2]
theorem mfixE_hook_eq : ∀ v, mfixE v = true → MinyDict.hook v = v
  | .vnone, _ => rfl
  | .vbool _, _ => rfl
  | .vint _, _ => rfl
  | .vfloat _ _, _ => rfl
  | .vstr _, _ => rfl
  | .vlist xs, h => by
    simp only [mfixE] at h
    simp [MinyDict.hook, mfixL_hookL_eq xs h]
  | .vdict d, h => by simp [mfixE] at h
  | .vminy f e, _ => rfl
end

mutual
theorem mfixD_ofDict : ∀ d, mfixD (MinyDict.ofDict d) = true
  | .nil => rfl
  | .cons k v tl => by
    simp [MinyDict.ofDict, mfixD, mfixV_entryCoerce v, mfixD_ofDict tl]
theorem mfixV_entryCoerce : ∀ v, mfixV (MinyDict.entryCoerce v) = true
  | .vnone => rfl
  | .vbool _ => rfl
  | .vint _ => rfl
  | .vfloat _ _ => rfl
  | .vstr _ => rfl
  | .vlist xs => by simp [MinyDict.entryCoerce, mfixV, mfixL_hookL xs]
  | .vdict d => by simp [MinyDict.entryCoerce, mfixV, mfixD_ofDict d]
  | .vminy f e => by simp [MinyDict.entryCoerce, mfixV, mfixD_ofDict e]
theorem mfixL_hookL : ∀ xs, mfixL (MinyDict.hookL xs) = true
  | .nil => rfl
  | .cons v tl => by simp [MinyDict.hookL, mfixL, mfixE_hook v, mfixL_hookL tl]
theorem mfixE_hook : ∀ v, mfixE (MinyDict.hook v) = true
  | .vnone => rfl
  | .vbool _ => rfl
  | .vint _ => rfl
  | .vfloat _ _ => rfl
  | .vstr _ => rfl
  | .vlist xs => by simp [MinyDict.hook, mfixE, mfixL_hookL xs]
  | .vdict d => by simp [MinyDict.hook, mfixE]
  | .vminy f e => by simp [MinyDict.hook, mfixE]
end

mutual
theorem nrD_ofDict : ∀ d, nrD (MinyDict.ofDict d) = true
  | .nil => rfl
  | .cons k v tl => by
    simp [MinyDict.ofDict, nrD, nrV_entryCoerce v, nrD_ofDict tl]
theorem nrV_entryCoerce : ∀ v, nrV (MinyDict.entryCoerce v) = true
  | .vnone => rfl
  | .vbool _ => rfl
  | .vint _ => rfl
  | .vfloat _ _ => rfl
  | .vstr _ => rfl
  | .vlist xs => by simp [MinyDict.entryCoerce, nrV]
  | .vdict d => by simp [MinyDict.entryCoerce, nrV, nrD_ofDict d]
  | .vminy f e => by simp [MinyDict.entryCoerce, nrV, nrD_ofDict e]
end

theorem nrV_setItemCoerce : ∀ v, nrV v = true → nrV (MinyDict.setItemCoerce v) = true
  | .vnone, _ => rfl
  | .vbool _, _ => rfl
  | .vint _, _ => rfl
  | .vfloat _ _, _ => rfl
  | .vstr _, _ => rfl
  | .vlist _, _ => rfl
  | .vdict d, h => by simp [nrV] at h
  | .vminy f e, _ => by simp [MinyDict.setItemCoerce, nrV, nrD_ofDict e]

mutual
theorem dfD_ofDict : ∀ d, dfD d = true → dfD (MinyDict.ofDict d) = true
  | .nil, _ => rfl
  | .cons k v tl, h => by
    simp only [dfD, Bool.and_eq_true] at h
    simp [MinyDict.ofDict, dfD, h.1.1, dfV_entryCoerce v h.1.2, dfD_ofDict tl h.2]
theorem dfV_entryCoerce : ∀ v, dfV v = true → dfV (MinyDict.entryCoerce v) = true
  | .vnone, _ => rfl
  | .vbool _, _ => rfl
  | .vint _, _ => rfl
  | .vfloat _ _, _ => rfl
  | .vstr _, _ => rfl
  | .vlist xs, _ => by simp [MinyDict.entryCoerce, dfV]
  | .vdict d, h => by simp [dfV] at h
  | .vminy f e, h => by
    simp only [dfV] at h
    simp [MinyDict.entryCoerce, dfV, dfD_ofDict e h]
end

mutual
theorem mND_ofDict : ∀ d, mND (MinyDict.ofDict d) = mND d
  | .nil => rfl
  | .cons k v tl => by
    simp [MinyDict.ofDict, mND, mNV_entryCoerce v, mND_ofDict tl]
theorem mNV_entryCoerce : ∀ v, mNV (MinyDict.entryCoerce v) = mNV v
  | .vnone => rfl
  | .vbool _ => rfl
  | .vint _ => rfl
  | .vfloat _ _ => rfl
  | .vstr _ => rfl
  | .vlist xs => by simp [MinyDict.entryCoerce, mNV]
  | .vdict d => by simp [MinyDict.entryCoerce, mNV, mND_ofDict d]
  | .vminy f e => by simp [MinyDict.entryCoerce, mNV, mND_ofDict e]
end

theorem keysD_len_le_mND : ∀ d, (keysD d).length ≤ mND d
  | .nil => le_refl 0
  | .cons k v tl => by
    simp only [keysD, List.length_cons, mND]
    have := keysD_len_le_mND tl
    omega

theorem mND_lookup_miny : ∀ (d : PDict) (k : String) (f : Bool) (e : PDict),
    lookupD d k = some (.vminy f e) → 3 + 2 * mND e ≤ mND d
  | .nil, k, f, e => by simp [lookupD]
  | .cons k' v' tl, k, f, e => by
    by_cases h : k' = k
    · subst h
      simp only [lookupD, if_true, ite_true]
      intro hh
      rw [Option.some.inj hh]
      simp only [mND, mNV]
      omega
    · simp only [lookupD, h, if_false, ite_false]
      intro hh
      have := mND_lookup_miny tl k f e hh
      simp only [mND]
      omega

mutual
theorem pyStructEqV_refl : ∀ v, pyStructEqV v v = true
  | .vnone => rfl
  | .vbool b => by simp [pyStructEqV]
  | .vint n => by simp [pyStructEqV]
  | .vfloat m e => by simp [pyStructEqV]
  | .vstr s => by simp [pyStructEqV]
  | .vlist xs => by simp [pyStructEqV, pyStructEqL_refl xs]
  | .vdict d => by simp [pyStructEqV, pyStructEqD_refl d]
  | .vminy f e => by simp [pyStructEqV, pyStructEqD_refl e]
theorem pyStructEqL_refl : ∀ xs, pyStructEqL xs xs = true
  | .nil => rfl
  | .cons v tl => by simp [pyStructEqL, pyStructEqV_refl v, pyStructEqL_refl tl]
theorem pyStructEqD_refl : ∀ d, pyStructEqD d d = true
  | .nil => rfl
  | .cons k v tl => by simp [pyStructEqD, pyStructEqV_refl v, pyStructEqD_refl tl]
end

mutual
theorem pyStructEqD_ofDict : ∀ d, pyStructEqD d (MinyDict.ofDict d) = true
  | .nil => rfl
  | .cons k v tl => by
    simp [MinyDict.ofDict, pyStructEqD, pyStructEqV_entryCoerce v, pyStructEqD_ofDict tl]
theorem pyStructEqV_entryCoerce : ∀ v, pyStructEqV v (MinyDict.entryCoerce v) = true
  | .vnone => rfl
  | .vbool b => by simp [MinyDict.entryCoerce, pyStructEqV]
  | .vint n => by simp [MinyDict.entryCoerce, pyStructEqV]
  | .vfloat m e => by simp [MinyDict.entryCoerce, pyStructEqV]
  | .vstr s => by simp [MinyDict.entryCoerce, pyStructEqV]
  | .vlist xs => by simp [MinyDict.entryCoerce, pyStructEqV, pyStructEqL_hookL xs]
  | .vdict d => by simp [MinyDict.entryCoerce, pyStructEqV, pyStructEqD_ofDict d]
  | .vminy f e => by simp [MinyDict.entryCoerce, pyStructEqV, pyStructEqD_ofDict e]
theorem pyStructEqL_hookL : ∀ xs, pyStructEqL xs (MinyDict.hookL xs) = true
  | .nil => rfl
  | .cons v tl => by
    simp [MinyDict.hookL, pyStructEqL, pyStructEqV_hook v, pyStructEqL_hookL tl]
theorem pyStructEqV_hook : ∀ v, pyStructEqV v (MinyDict.hook v) = true
  | .vnone => rfl
  | .vbool b => by simp [MinyDict.hook, pyStructEqV]
  | .vint n => by simp [MinyDict.hook, pyStructEqV]
  | .vfloat m e => by simp [MinyDict.hook, pyStructEqV]
  | .vstr s => by simp [MinyDict.hook, pyStructEqV]
  | .vlist xs => by simp [MinyDict.hook, pyStructEqV, pyStructEqL_hookL xs]
  | .vdict d => by simp [MinyDict.hook, pyStructEqV, pyStructEqD_ofDict d]
  | .vminy f e => by simp [MinyDict.hook, pyStructEqV, pyStructEqD_refl e]
end

theorem dfV_outV : ∀ v, dfV v = true → outV v = true
  | .vnone, _ => rfl
  | .vbool _, _ => rfl
  | .vint _, _ => rfl
  | .vfloat _ _, _ => rfl
  | .vstr _, _ => rfl
  | .vlist _, _ => rfl
  | .vdict d, h => by simp [dfV] at h
  | .vminy f e, h => by simpa [dfV, outV] using h

theorem outV_nrV_dfV : ∀ v, outV v = true → nrV v = true → dfV v = true
  | .vnone, _, _ => rfl
  | .vbool _, _, _ => rfl
  | .vint _, _, _ => rfl
  | .vfloat _ _, _, _ => rfl
  | .vstr _, _, _ => rfl
  | .vlist _, _, _ => rfl
  | .vdict d, _, hn => by simp [nrV] at hn
  | .vminy f e, ho, _ => by simpa [outV, dfV] using ho

mutual
theorem goodRun_of_mfix_df : ∀ e, mfixD e = true → dfD e = true → goodRunD false e = true
  | .nil, _, _ => rfl
  | .cons k v tl, hm, hd => by
    simp only [mfixD, Bool.and_eq_true] at hm
    simp only [dfD, Bool.and_eq_true] at hd
    simp [goodRunD, hd.1.1, goodRunV_of_mfix_df v hm.1 hd.1.2,
      goodRun_of_mfix_df tl hm.2 hd.2]
theorem goodRunV_of_mfix_df : ∀ v, mfixV v = true → dfV v = true → goodRunV false v = true
  | .vnone, _, _ => rfl
  | .vbool _, _, _ => rfl
  | .vint _, _, _ => rfl
  | .vfloat _ _, _, _ => rfl
  | .vstr _, _, _ => rfl
  | .vlist _, _, _ => rfl
  | .vdict d, hm, _ => by simp [mfixV] at hm
  | .vminy f e, hm, hd => by
    simp only [mfixV, Bool.and_eq_true, Bool.not_eq_true'] at hm
    simp only [dfV] at hd
    simp [goodRunV, hm.1, hm.2, hd]
end

mutual
theorem dfD_nrD : ∀ d, dfD d = true → nrD d = true
  | .nil, _ => rfl
  | .cons k v tl, h => by
    simp only [dfD, Bool.and_eq_true] at h
    simp [nrD, dfV_nrV v h.1.2, dfD_nrD tl h.2]
theorem dfV_nrV : ∀ v, dfV v = true → nrV v = true
  | .vnone, _ => rfl
  | .vbool _, _ => rfl
  | .vint _, _ => rfl
  | .vfloat _ _, _ => rfl
  | .vstr _, _ => rfl
  | .vlist _, _ => rfl
  | .vdict d, h => by simp [dfV] at h
  | .vminy f e, h => by
    simp only [dfV] at h
    simp [nrV, dfD_nrD e h]
end

theorem dfD_insertD : ∀ (d : PDict) (k : String) (v : PVal),
    dfD d = true → containsChar '.' k = false → dfV v = true →
    dfD (insertD d k v) = true
  | .nil, k, v, _, hk, hv => by simp [insertD, dfD, hk, hv]
  | .cons k' v' tl, k, v, hd, hk, hv => by
    simp only [dfD, Bool.and_eq_true, Bool.not_eq_true'] at hd
    by_cases h : k' = k
    · subst h
      simp [insertD, dfD, hd.1.1, hv, hd.2]
    · simp [insertD, h, dfD, hd.1.1, hd.1.2, dfD_insertD tl k v hd.2 hk hv]

theorem keysD_insert_of_mem : ∀ (d : PDict) (k : String) (v : PVal),
    hasKey d k = true → keysD (insertD d k v) = keysD d
  | .nil, k, v => by simp [PDict.hasKey, lookupD]
  | .cons k' v' tl, k, v => by
    by_cases h : k' = k
    · subst h; simp [insertD, keysD]
    · simp only [PDict.hasKey, lookupD, h, if_false, ite_false]
      intro hh
      simp [insertD, h, keysD, keysD_insert_of_mem tl k v hh]

theorem keysD_eraseD_sublist : ∀ (d : PDict) (k : String),
    (keysD (eraseD d k)).Sublist (keysD d)
  | .nil, k => by simp [eraseD, keysD]
  | .cons k' v' tl, k => by
    by_cases h : k' = k
    · subst h
      simp only [eraseD, if_true, ite_true, keysD]
      exact List.sublist_cons_self _ _
    · simp only [eraseD, h, if_false, ite_false, keysD]
      exact List.Sublist.cons₂ _ (keysD_eraseD_sublist tl k)

theorem eraseD_key_ne : ∀ (d : PDict) (k : String) (kv : String × PVal),
    (keysD d).Nodup → kv ∈ toL (eraseD d k) → kv.1 ≠ k
  | .nil, k, kv, _, h => by simp [eraseD, toL] at h
  | .cons k' v' tl, k, kv, hnd, h => by
    simp only [keysD, List.nodup_cons] at hnd
    by_cases hk : k' = k
    · subst hk
      simp only [eraseD, if_true, ite_true] at h
      intro he
      exact hnd.1 (he ▸ mem_toL_key tl kv h)
    · simp only [eraseD, hk, if_false, ite_false, toL, List.mem_cons] at h
      rcases h with h | h
      · intro he; exact hk (by rw [← he, h])
      · exact eraseD_key_ne tl k kv hnd.2 h

theorem keysD_ofDict : ∀ d, keysD (MinyDict.ofDict d) = keysD d
  | .nil => rfl
  | .cons k v tl => by simp [MinyDict.ofDict, keysD, keysD_ofDict tl]

theorem ndE_iff : ∀ d, ndE d ↔ ∀ kv ∈ toL d, ndV kv.2
  | .nil => by simp [ndE, toL]
  | .cons k v tl => by
    simp only [ndE, toL, List.mem_cons]
    rw [ndE_iff tl]
    constructor
    · rintro ⟨h1, h2⟩ kv hkv
      rcases hkv with h | h
      · subst h; exact h1
      · exact h2 kv h
    · intro h
      exact ⟨h (k, v) (Or.inl rfl), fun kv hh => h kv (Or.inr hh)⟩

mutual
theorem ndE_ofDict : ∀ d, ndE d → ndE (MinyDict.ofDict d)
  | .nil, _ => trivial
  | .cons k v tl, h => by
    simp only [ndE] at h
    exact ⟨ndV_entryCoerce_nd v h.1, ndE_ofDict tl h.2⟩
theorem ndV_entryCoerce_nd : ∀ v, ndV v → ndV (MinyDict.entryCoerce v)
  | .vnone, _ => trivial
  | .vbool _, _ => trivial
  | .vint _, _ => trivial
  | .vfloat _ _, _ => trivial
  | .vstr _, _ => trivial
  | .vlist xs, _ => by simp [MinyDict.entryCoerce, ndV]
  | .vdict d, h => by
    simp only [ndV] at h
    simp only [MinyDict.entryCoerce, ndV, keysD_ofDict]
    exact ⟨ndE_ofDict d h.1, h.2⟩
  | .vminy f e, h => by
    simp only [ndV] at h
    simp only [MinyDict.entryCoerce, ndV, keysD_ofDict]
    exact ⟨ndE_ofDict e h.1, h.2⟩
end

theorem ndD_ofDict (d : PDict) (h : ndD d) : ndD (MinyDict.ofDict d) := by
  obtain ⟨h1, h2⟩ := h
  exact ⟨ndE_ofDict d h1, by rw [keysD_ofDict]; exact h2⟩

theorem ndD_insertD (d : PDict) (k : String) (v : PVal)
    (hd : ndD d) (hv : ndV v) : ndD (insertD d k v) := by
  obtain ⟨h1, h2⟩ := hd
  constructor
  · rw [ndE_iff]
    intro kv hkv
    rcases mem_toL_insertD d k v kv hkv with h | h
    · rw [h]; exact hv
    · exact (ndE_iff d).mp h1 kv h
  · by_cases hh : hasKey d k = true
    · rw [keysD_insert_of_mem d k v hh]; exact h2
    · have hfalse : hasKey d k = false := by rw [← Bool.not_eq_true]; exact hh
      rw [keysD_insert_not_mem d k v hfalse]
      have hnotin : k ∉ keysD d := fun hm => hh ((hasKey_iff_mem d k).mpr hm)
      exact List.Nodup.append h2 (List.nodup_singleton k)
        (by simpa [List.disjoint_singleton] using hnotin)

theorem ndD_eraseD (d : PDict) (k : String) (hd : ndD d) : ndD (eraseD d k) := by
  obtain ⟨h1, h2⟩ := hd
  constructor
  · rw [ndE_iff]
    intro kv hkv
    exact (ndE_iff d).mp h1 kv (mem_toL_eraseD d k kv hkv)
  · exact List.Nodup.sublist (keysD_eraseD_sublist d k) h2

theorem splitDots_ne_nil : ∀ cs, splitDots cs ≠ [] := by
  intro cs
  cases cs with
  | nil => simp [splitDots]
  | cons c cs =>
    simp only [splitDots]
    split
    · simp
    · rcases h : splitDots cs with _ | ⟨q, qs⟩ <;> simp

theorem splitDots_no_dot : ∀ cs p, p ∈ splitDots cs → '.' ∉ p := by
  intro cs
  induction cs with
  | nil => intro p hp; simp [splitDots] at hp; simp [hp]
  | cons c cs ih =>
    intro p hp
    simp only [splitDots] at hp
    split at hp
    · rename_i hc
      rcases List.mem_cons.mp hp with hp | hp
      · simp [hp]
      · exact ih p hp
    · rename_i hc
      rcases h : splitDots cs with _ | ⟨q, qs⟩
      · exact absurd h (splitDots_ne_nil cs)
      · rw [h] at hp
        rcases List.mem_cons.mp hp with hp | hp
        · subst hp
          intro hmem
          rcases List.mem_cons.mp hmem with hmem | hmem
          · exact hc hmem.symm
          · exact ih q (by rw [h]; exact List.mem_cons_self q qs) hmem
        · exact ih p (by rw [h]; exact List.mem_cons_of_mem q hp)

theorem pySplitDots_no_dot (k : String) :
    ∀ p ∈ pySplitDots k, containsChar '.' p = false := by
  intro p hp
  simp only [pySplitDots, List.mem_map] at hp
  obtain ⟨cs, hcs, hcseq⟩ := hp
  have := splitDots_no_dot k.data cs hcs
  subst hcseq
  simpa [containsChar] using this

theorem walkPath_cons_ok_shape :
    ∀ (n : Nat) (x : PVal) (s : String) (rest : List String) (v out : PVal),
    MinyDict.walkPath n x (s :: rest) v = .ok out →
    (∃ f e, x = .vminy f e) ∨ (∃ e, x = .vdict e) := by
  intro n x s rest v out h
  cases n with
  | zero => simp [MinyDict.walkPath] at h
  | succ n =>
    cases rest with
    | nil =>
      cases x <;>
        simp [MinyDict.walkPath, MinyDict.setAnyItem] at h <;> simp
    | cons s2 rest2 =>
      cases x <;>
        simp [MinyDict.walkPath] at h <;> simp

theorem resolveKeys_id : ∀ (n : Nat) (fz : Bool) (ks : List String) (d : PDict),
    goodRunD fz d = true →
    (∀ k ∈ ks, k ∈ keysD d) →
    ks.length + 2 * mND d ≤ n →
    MinyDict.resolveKeys n fz ks d = .ok d := by
  intro n
  induction n using Nat.strong_induction_on with
  | _ n ih =>
    intro fz ks d hg hks hfuel
    cases ks with
    | nil => cases n <;> simp [MinyDict.resolveKeys]
    | cons k ks =>
      cases n with
      | zero => simp only [List.length_cons] at hfuel; omega
      | succ m =>
        have hk : k ∈ keysD d := hks k (List.mem_cons_self k ks)
        obtain ⟨v0, hv0⟩ := key_lookupD d k hk
        have hgk := (goodRunD_iff fz d).mp hg (k, v0) (lookupD_mem_toL d k v0 hv0)
        have hdot : containsChar '.' k = false := hgk.1
        have htail : MinyDict.resolveKeys m fz ks d = .ok d := by
          apply ih m (Nat.lt_succ_self m) fz ks d hg
            (fun x hx => hks x (List.mem_cons_of_mem k hx))
          simp only [List.length_cons] at hfuel
          omega
        cases v0 with
        | vminy f e =>
          have hgv := hgk.2
          simp only [goodRunV, Bool.and_eq_true, Bool.not_eq_true'] at hgv
          obtain ⟨⟨⟨hfz, hf⟩, hmfix⟩, hdf⟩ := hgv
          subst hfz; subst hf
          have hbound : 3 + 2 * mND e ≤ mND d := mND_lookup_miny d k false e hv0
          have hm1 : ∃ m2, m = m2 + 1 := by
            refine ⟨m - 1, ?_⟩
            simp only [List.length_cons] at hfuel
            omega
          obtain ⟨m2, rfl⟩ := hm1
          have hdots : MinyDict.resolveDots (m2 + 1) false e = .ok e := by
            simp only [MinyDict.resolveDots]
            apply ih m2 (by omega) false (keysD e) e
              (goodRun_of_mfix_df e hmfix hdf) (fun x hx => hx)
            have := keysD_len_le_mND e
            simp only [List.length_cons] at hfuel
            omega
          have hins : insertD d k (MinyDict.setItemCoerce (.vminy false e)) = d := by
            simp only [MinyDict.setItemCoerce, mfixD_ofDict_eq e hmfix]
            exact insertD_self d k (.vminy false e) hv0
          simp [MinyDict.resolveKeys, hv0, hdots,
            MinyDict.setItem, hins, hdot, htail]
        | vnone =>
          simp [MinyDict.resolveKeys, hv0, hdot, htail]
        | vbool b =>
          simp [MinyDict.resolveKeys, hv0, hdot, htail]
        | vint nn =>
          simp [MinyDict.resolveKeys, hv0, hdot, htail]
        | vfloat mm ee =>
          simp [MinyDict.resolveKeys, hv0, hdot, htail]
        | vstr s =>
          simp [MinyDict.resolveKeys, hv0, hdot, htail]
        | vlist xs =>
          simp [MinyDict.resolveKeys, hv0, hdot, htail]
        | vdict dd =>
          exact absurd hgk.2 (by simp [goodRunV])

theorem mem_toL_insertD_nodup : ∀ (d : PDict) (k : String) (v : PVal)
    (kv : String × PVal), (keysD d).Nodup → kv ∈ toL (insertD d k v) →
    kv = (k, v) ∨ (kv ∈ toL d ∧ kv.1 ≠ k)
  | .nil, k, v, kv, _, h => by
    simp only [insertD, toL, List.mem_cons, List.not_mem_nil, or_false] at h
    exact Or.inl h
  | .cons k' v' tl, k, v, kv, hnd, h => by
    simp only [keysD, List.nodup_cons] at hnd
    by_cases hk : k' = k
    · subst hk
      simp only [insertD, if_true, ite_true, toL, List.mem_cons] at h
      rcases h with h | h
      · exact Or.inl h
      · refine Or.inr ⟨List.mem_cons_of_mem _ h, ?_⟩
        intro he
        exact hnd.1 (he ▸ mem_toL_key tl kv h)
    · simp only [insertD, hk, if_false, ite_false, toL, List.mem_cons] at h
      rcases h with h | h
      · exact Or.inr ⟨List.mem_cons.mpr (Or.inl h), by rw [h]; exact hk⟩
      · rcases mem_toL_insertD_nodup tl k v kv hnd.2 h with h2 | h2
        · exact Or.inl h2
        · exact Or.inr ⟨List.mem_cons_of_mem _ h2.1, h2.2⟩

theorem nodup_mem_toL_lookup : ∀ (d : PDict) (kv : String × PVal),
    (keysD d).Nodup → kv ∈ toL d → lookupD d kv.1 = some kv.2
  | .nil, kv, _, h => by simp [toL] at h
  | .cons k' v' tl, kv, hnd, h => by
    simp only [keysD, List.nodup_cons] at hnd
    simp only [toL, List.mem_cons] at h
    rcases h with h | h
    · subst h; simp [lookupD]
    · have hne : k' ≠ kv.1 := by
        intro he
        exact hnd.1 (he ▸ mem_toL_key tl kv h)
      simpa [lookupD, hne] using nodup_mem_toL_lookup tl kv hnd.2 h

mutual
theorem goodRunD_dfD : ∀ (fz : Bool) (d : PDict),
    goodRunD fz d = true → dfD d = true
  | fz, .nil, _ => rfl
  | fz, .cons k v tl, h => by
    simp only [goodRunD, Bool.and_eq_true, Bool.not_eq_true'] at h
    simp [dfD, h.1.1, goodRunV_dfV fz v h.1.2, goodRunD_dfD fz tl h.2]
theorem goodRunV_dfV : ∀ (fz : Bool) (v : PVal),
    goodRunV fz v = true → dfV v = true
  | fz, .vnone, _ => rfl
  | fz, .vbool _, _ => rfl
  | fz, .vint _, _ => rfl
  | fz, .vfloat _ _, _ => rfl
  | fz, .vstr _, _ => rfl
  | fz, .vlist _, _ => rfl
  | fz, .vdict d, h => by simp [goodRunV] at h
  | fz, .vminy f e, h => by
    simp only [goodRunV, Bool.and_eq_true] at h
    simpa [dfV] using h.2
end

theorem walkPath_frozen_err (n : Nat) (e : PDict) (s : String) (rest : List String)
    (v w : PVal) (hnr : nrD e = true) :
    MinyDict.walkPath n (.vminy true e) (s :: rest) v ≠ .ok w := by
  intro h
  cases n with
  | zero => simp [MinyDict.walkPath] at h
  | succ m =>
    cases rest with
    | nil =>
      simp [MinyDict.walkPath, MinyDict.setAnyItem, MinyDict.setItem] at h
    | cons s2 rest2 =>
      simp only [MinyDict.walkPath] at h
      by_cases hhk : e.hasKey s = true
      · simp only [hhk, if_true, ite_true, exceptPure, exceptBind_ok] at h
        cases hlk : lookupD e s with
        | none =>
          simp [PDict.hasKey, hlk] at hhk
        | some v2 =>
          rw [hlk] at h
          cases v2 with
          | vminy f mm =>
            cases hd : MinyDict.resolveDots m f mm with
            | error er => simp [hd] at h
            | ok m2 => simp [hd, MinyDict.setItem] at h
          | vdict dd =>
            have := (nrD_iff e).mp hnr (s, .vdict dd) (lookupD_mem_toL e s _ hlk)
            simp [nrV] at this
          | vnone =>
            cases hw : MinyDict.walkPath m .vnone (s2 :: rest2) v with
            | error er => simp [hw] at h
            | ok iv =>
              rcases walkPath_cons_ok_shape m .vnone s2 rest2 v iv hw with ⟨f, e3, h3⟩ | ⟨e3, h3⟩ <;>
                exact PVal.noConfusion h3
          | vbool b =>
            cases hw : MinyDict.walkPath m (.vbool b) (s2 :: rest2) v with
            | error er => simp [hw] at h
            | ok iv =>
              rcases walkPath_cons_ok_shape m (.vbool b) s2 rest2 v iv hw with ⟨f, e3, h3⟩ | ⟨e3, h3⟩ <;>
                exact PVal.noConfusion h3
          | vint nn =>
            cases hw : MinyDict.walkPath m (.vint nn) (s2 :: rest2) v with
            | error er => simp [hw] at h
            | ok iv =>
              rcases walkPath_cons_ok_shape m (.vint nn) s2 rest2 v iv hw with ⟨f, e3, h3⟩ | ⟨e3, h3⟩ <;>
                exact PVal.noConfusion h3
          | vfloat mm ee =>
            cases hw : MinyDict.walkPath m (.vfloat mm ee) (s2 :: rest2) v with
            | error er => simp [hw] at h
            | ok iv =>
              rcases walkPath_cons_ok_shape m (.vfloat mm ee) s2 rest2 v iv hw with ⟨f, e3, h3⟩ | ⟨e3, h3⟩ <;>
                exact PVal.noConfusion h3
          | vstr ss =>
            cases hw : MinyDict.walkPath m (.vstr ss) (s2 :: rest2) v with
            | error er => simp [hw] at h
            | ok iv =>
              rcases walkPath_cons_ok_shape m (.vstr ss) s2 rest2 v iv hw with ⟨f, e3, h3⟩ | ⟨e3, h3⟩ <;>
                exact PVal.noConfusion h3
          | vlist xs =>
            cases hw : MinyDict.walkPath m (.vlist xs) (s2 :: rest2) v with
            | error er => simp [hw] at h
            | ok iv =>
              rcases walkPath_cons_ok_shape m (.vlist xs) s2 rest2 v iv hw with ⟨f, e3, h3⟩ | ⟨e3, h3⟩ <;>
                exact PVal.noConfusion h3
      · simp only [hhk, if_false, ite_false, Bool.false_eq_true, MinyDict.setItem,
          if_true, ite_true, exceptBind_error] at h
        exact Except.noConfusion h

theorem resolveKeys_frozen_id : ∀ (ks : List String) (n : Nat) (d r : PDict),
    MinyDict.resolveKeys n true ks d = .ok r →
    nrD d = true → (keysD d).Nodup →
    (∀ kv ∈ toL d, kv.1 ∉ ks →
      containsChar '.' kv.1 = false ∧ goodRunV true kv.2 = true) →
    r = d ∧ goodRunD true r = true := by
  intro ks
  induction ks with
  | nil =>
    intro n d r h hnr hnd hproc
    have hr : r = d := by
      cases n <;> simpa [MinyDict.resolveKeys] using h.symm
    subst hr
    refine ⟨rfl, (goodRunD_iff true r).mpr ?_⟩
    intro kv hkv
    exact hproc kv hkv (List.not_mem_nil kv.1)
  | cons k ks ih =>
    intro n d r h hnr hnd hproc
    cases n with
    | zero => simp [MinyDict.resolveKeys] at h
    | succ m =>
      simp only [MinyDict.resolveKeys] at h
      cases hv : lookupD d k with
      | some v0 =>
        rw [hv] at h
        cases v0 with
        | vminy f e =>
          simp only [Option.getD_some] at h
          cases hd : MinyDict.resolveDots m f e with
          | error er => rw [hd] at h; simp at h
          | ok e2 =>
            rw [hd] at h
            simp [MinyDict.setItem] at h
        | vdict dd =>
          have := (nrD_iff d).mp hnr (k, .vdict dd) (lookupD_mem_toL d k _ hv)
          simp [nrV] at this
        | vnone =>
          simp only [Option.getD_some, exceptPure, exceptBind_ok] at h
          by_cases hdot : containsChar '.' k
          · rw [if_pos hdot] at h
            cases hw : MinyDict.walkPath m (.vminy true d) (pySplitDots k) .vnone with
            | error er => rw [hw] at h; simp at h
            | ok w =>
              rcases hsp : pySplitDots k with _ | ⟨p1, prest⟩
              · exact absurd (congrArg List.length hsp)
                  (by simp [pySplitDots, splitDots_ne_nil])
              · rw [hsp] at hw
                exact absurd hw (walkPath_frozen_err m d p1 prest .vnone w hnr)
          · rw [if_neg hdot] at h
            have hrec := ih m d r h hnr hnd ?_
            · exact hrec
            · intro kv hkv hks
              by_cases hkk : kv.1 = k
              · have hlk := nodup_mem_toL_lookup d kv hnd hkv
                rw [hkk, hv] at hlk
                refine ⟨by rw [hkk]; simpa using hdot, ?_⟩
                rw [show kv.2 = PVal.vnone from (Option.some.inj hlk).symm]
                rfl
              · exact hproc kv hkv (by simp [hkk, hks])
        | vbool b =>
          simp only [Option.getD_some, exceptPure, exceptBind_ok] at h
          by_cases hdot : containsChar '.' k
          · rw [if_pos hdot] at h
            cases hw : MinyDict.walkPath m (.vminy true d) (pySplitDots k) (.vbool b) with
            | error er => rw [hw] at h; simp at h
            | ok w =>
              rcases hsp : pySplitDots k with _ | ⟨p1, prest⟩
              · exact absurd (congrArg List.length hsp)
                  (by simp [pySplitDots, splitDots_ne_nil])
              · rw [hsp] at hw
                exact absurd hw (walkPath_frozen_err m d p1 prest (.vbool b) w hnr)
          · rw [if_neg hdot] at h
            have hrec := ih m d r h hnr hnd ?_
            · exact hrec
            · intro kv hkv hks
              by_cases hkk : kv.1 = k
              · have hlk := nodup_mem_toL_lookup d kv hnd hkv
                rw [hkk, hv] at hlk
                refine ⟨by rw [hkk]; simpa using hdot, ?_⟩
                rw [show kv.2 = PVal.vbool b from (Option.some.inj hlk).symm]
                rfl
              · exact hproc kv hkv (by simp [hkk, hks])
        | vint nn =>
          simp only [Option.getD_some, exceptPure, exceptBind_ok] at h
          by_cases hdot : containsChar '.' k
          · rw [if_pos hdot] at h
            cases hw : MinyDict.walkPath m (.vminy true d) (pySplitDots k) (.vint nn) with
            | error er => rw [hw] at h; simp at h
            | ok w =>
              rcases hsp : pySplitDots k with _ | ⟨p1, prest⟩
              · exact absurd (congrArg List.length hsp)
                  (by simp [pySplitDots, splitDots_ne_nil])
              · rw [hsp] at hw
                exact absurd hw (walkPath_frozen_err m d p1 prest (.vint nn) w hnr)
          · rw [if_neg hdot] at h
            have hrec := ih m d r h hnr hnd ?_
            · exact hrec
            · intro kv hkv hks
              by_cases hkk : kv.1 = k
              · have hlk := nodup_mem_toL_lookup d kv hnd hkv
                rw [hkk, hv] at hlk
                refine ⟨by rw [hkk]; simpa using hdot, ?_⟩
                rw [show kv.2 = PVal.vint nn from (Option.some.inj hlk).symm]
                rfl
              · exact hproc kv hkv (by simp [hkk, hks])
        | vfloat mm ee =>
          simp only [Option.getD_some, exceptPure, exceptBind_ok] at h
          by_cases hdot : containsChar '.' k
          · rw [if_pos hdot] at h
            cases hw : MinyDict.walkPath m (.vminy true d) (pySplitDots k) (.vfloat mm ee) with
            | error er => rw [hw] at h; simp at h
            | ok w =>
              rcases hsp : pySplitDots k with _ | ⟨p1, prest⟩
              · exact absurd (congrArg List.length hsp)
                  (by simp [pySplitDots, splitDots_ne_nil])
              · rw [hsp] at hw
                exact absurd hw (walkPath_frozen_err m d p1 prest (.vfloat mm ee) w hnr)
          · rw [if_neg hdot] at h
            have hrec := ih m d r h hnr hnd ?_
            · exact hrec
            · intro kv hkv hks
              by_cases hkk : kv.1 = k
              · have hlk := nodup_mem_toL_lookup d kv hnd hkv
                rw [hkk, hv] at hlk
                refine ⟨by rw [hkk]; simpa using hdot, ?_⟩
                rw [show kv.2 = PVal.vfloat mm ee from (Option.some.inj hlk).symm]
                rfl
              · exact hproc kv hkv (by simp [hkk, hks])
        | vstr ss =>
          simp only [Option.getD_some, exceptPure, exceptBind_ok] at h
          by_cases hdot : containsChar '.' k
          · rw [if_pos hdot] at h
            cases hw : MinyDict.walkPath m (.vminy true d) (pySplitDots k) (.vstr ss) with
            | error er => rw [hw] at h; simp at h
            | ok w =>
              rcases hsp : pySplitDots k with _ | ⟨p1, prest⟩
              · exact absurd (congrArg List.length hsp)
                  (by simp [pySplitDots, splitDots_ne_nil])
              · rw [hsp] at hw
                exact absurd hw (walkPath_frozen_err m d p1 prest (.vstr ss) w hnr)
          · rw [if_neg hdot] at h
            have hrec := ih m d r h hnr hnd ?_
            · exact hrec
            · intro kv hkv hks
              by_cases hkk : kv.1 = k
              · have hlk := nodup_mem_toL_lookup d kv hnd hkv
                rw [hkk, hv] at hlk
                refine ⟨by rw [hkk]; simpa using hdot, ?_⟩
                rw [show kv.2 = PVal.vstr ss from (Option.some.inj hlk).symm]
                rfl
              · exact hproc kv hkv (by simp [hkk, hks])
        | vlist xs =>
          simp only [Option.getD_some, exceptPure, exceptBind_ok] at h
          by_cases hdot : containsChar '.' k
          · rw [if_pos hdot] at h
            cases hw : MinyDict.walkPath m (.vminy true d) (pySplitDots k) (.vlist xs) with
            | error er => rw [hw] at h; simp at h
            | ok w =>
              rcases hsp : pySplitDots k with _ | ⟨p1, prest⟩
              · exact absurd (congrArg List.length hsp)
                  (by simp [pySplitDots, splitDots_ne_nil])
              · rw [hsp] at hw
                exact absurd hw (walkPath_frozen_err m d p1 prest (.vlist xs) w hnr)
          · rw [if_neg hdot] at h
            have hrec := ih m d r h hnr hnd ?_
            · exact hrec
            · intro kv hkv hks
              by_cases hkk : kv.1 = k
              · have hlk := nodup_mem_toL_lookup d kv hnd hkv
                rw [hkk, hv] at hlk
                refine ⟨by rw [hkk]; simpa using hdot, ?_⟩
                rw [show kv.2 = PVal.vlist xs from (Option.some.inj hlk).symm]
                rfl
              · exact hproc kv hkv (by simp [hkk, hks])
      | none =>
        rw [hv] at h
        simp only [Option.getD_none, exceptPure, exceptBind_ok] at h
        by_cases hdot : containsChar '.' k
        · rw [if_pos hdot] at h
          cases hw : MinyDict.walkPath m (.vminy true d) (pySplitDots k) .vnone with
          | error er => rw [hw] at h; simp at h
          | ok w =>
            rcases hsp : pySplitDots k with _ | ⟨p1, prest⟩
            · exact absurd (congrArg List.length hsp)
                (by simp [pySplitDots, splitDots_ne_nil])
            · rw [hsp] at hw
              exact absurd hw (walkPath_frozen_err m d p1 prest .vnone w hnr)
        · rw [if_neg hdot] at h
          have hrec := ih m d r h hnr hnd ?_
          · exact hrec
          · intro kv hkv hks
            by_cases hkk : kv.1 = k
            · exfalso
              have : kv.1 ∈ keysD d := mem_toL_key d kv hkv
              rw [hkk] at this
              obtain ⟨vv, hvv⟩ := key_lookupD d k this
              rw [hv] at hvv
              exact Option.noConfusion hvv
            · exact hproc kv hkv (by simp [hkk, hks])

theorem resolveNests_shape : ∀ (fz : Bool) (d d1 : PDict),
    MinyDict.resolveNests fz d = .ok d1 →
    keysD d1 = keysD d ∧ nrD d1 = true ∧ (ndE d → ndE d1)
  | fz, .nil, d1, h => by
    simp only [MinyDict.resolveNests] at h
    rw [← Except.ok.inj h]
    exact ⟨rfl, rfl, fun _ => trivial⟩
  | fz, .cons k v tl, d1, h => by
    simp only [MinyDict.resolveNests] at h
    cases v with
    | vdict e =>
      cases fz with
      | true => simp at h
      | false =>
        simp only [Bool.false_eq_true, if_false, ite_false] at h
        cases htl : MinyDict.resolveNests false tl with
        | error er => rw [htl] at h; simp at h
        | ok tl1 =>
          rw [htl] at h
          simp only [exceptMap_ok] at h
          obtain ⟨hk, hnr, hnd⟩ := resolveNests_shape false tl tl1 htl
          rw [← Except.ok.inj h]
          refine ⟨by simp [keysD, hk], by simp [nrD, nrV, nrD_ofDict e, hnr], ?_⟩
          rintro ⟨hv, he⟩
          simp only [ndE] at hv ⊢
          exact ⟨⟨(ndD_ofDict e hv).1, (ndD_ofDict e hv).2⟩, hnd he⟩
    | vminy f e =>
      cases fz with
      | true => simp at h
      | false =>
        simp only [Bool.false_eq_true, if_false, ite_false] at h
        cases htl : MinyDict.resolveNests false tl with
        | error er => rw [htl] at h; simp at h
        | ok tl1 =>
          rw [htl] at h
          simp only [exceptMap_ok] at h
          obtain ⟨hk, hnr, hnd⟩ := resolveNests_shape false tl tl1 htl
          rw [← Except.ok.inj h]
          refine ⟨by simp [keysD, hk], by simp [nrD, nrV, nrD_ofDict e, hnr], ?_⟩
          rintro ⟨hv, he⟩
          simp only [ndE] at hv ⊢
          exact ⟨⟨(ndD_ofDict e hv).1, (ndD_ofDict e hv).2⟩, hnd he⟩
    | vnone =>
      cases htl : MinyDict.resolveNests fz tl with
      | error er => rw [htl] at h; simp at h
      | ok tl1 =>
        rw [htl] at h
        simp only [exceptMap_ok] at h
        obtain ⟨hk, hnr, hnd⟩ := resolveNests_shape fz tl tl1 htl
        rw [← Except.ok.inj h]
        exact ⟨by simp [keysD, hk], by simp [nrD, nrV, hnr],
          fun hh => ⟨trivial, hnd hh.2⟩⟩
    | vbool b =>
      cases htl : MinyDict.resolveNests fz tl with
      | error er => rw [htl] at h; simp at h
      | ok tl1 =>
        rw [htl] at h
        simp only [exceptMap_ok] at h
        obtain ⟨hk, hnr, hnd⟩ := resolveNests_shape fz tl tl1 htl
        rw [← Except.ok.inj h]
        exact ⟨by simp [keysD, hk], by simp [nrD, nrV, hnr],
          fun hh => ⟨trivial, hnd hh.2⟩⟩
    | vint nn =>
      cases htl : MinyDict.resolveNests fz tl with
      | error er => rw [htl] at h; simp at h
      | ok tl1 =>
        rw [htl] at h
        simp only [exceptMap_ok] at h
        obtain ⟨hk, hnr, hnd⟩ := resolveNests_shape fz tl tl1 htl
        rw [← Except.ok.inj h]
        exact ⟨by simp [keysD, hk], by simp [nrD, nrV, hnr],
          fun hh => ⟨trivial, hnd hh.2⟩⟩
    | vfloat mm ee =>
      cases htl : MinyDict.resolveNests fz tl with
      | error er => rw [htl] at h; simp at h
      | ok tl1 =>
        rw [htl] at h
        simp only [exceptMap_ok] at h
        obtain ⟨hk, hnr, hnd⟩ := resolveNests_shape fz tl tl1 htl
        rw [← Except.ok.inj h]
        exact ⟨by simp [keysD, hk], by simp [nrD, nrV, hnr],
          fun hh => ⟨trivial, hnd hh.2⟩⟩
    | vstr ss =>
      cases htl : MinyDict.resolveNests fz tl with
      | error er => rw [htl] at h; simp at h
      | ok tl1 =>
        rw [htl] at h
        simp only [exceptMap_ok] at h
        obtain ⟨hk, hnr, hnd⟩ := resolveNests_shape fz tl tl1 htl
        rw [← Except.ok.inj h]
        exact ⟨by simp [keysD, hk], by simp [nrD, nrV, hnr],
          fun hh => ⟨trivial, hnd hh.2⟩⟩
    | vlist xs =>
      cases htl : MinyDict.resolveNests fz tl with
      | error er => rw [htl] at h; simp at h
      | ok tl1 =>
        rw [htl] at h
        simp only [exceptMap_ok] at h
        obtain ⟨hk, hnr, hnd⟩ := resolveNests_shape fz tl tl1 htl
        rw [← Except.ok.inj h]
        exact ⟨by simp [keysD, hk], by simp [nrD, nrV, hnr],
          fun hh => ⟨trivial, hnd hh.2⟩⟩

theorem resolveNests_good : ∀ d : PDict, dfD d = true → ndD d →
    ∃ d1, MinyDict.resolveNests false d = .ok d1 ∧ pyStructEqD d d1 = true ∧
      goodRunD false d1 = true ∧ ndD d1 ∧ keysD d1 = keysD d ∧ mND d1 = mND d
  | .nil, _, _ => ⟨.nil, rfl, rfl, rfl, ⟨trivial, List.nodup_nil⟩, rfl, rfl⟩
  | .cons k v tl, hdf, hnd => by
    simp only [dfD, Bool.and_eq_true, Bool.not_eq_true'] at hdf
    obtain ⟨⟨hk, hv⟩, htl⟩ := hdf
    obtain ⟨⟨hndv, hnde⟩, hnodup⟩ := hnd
    simp only [keysD, List.nodup_cons] at hnodup
    obtain ⟨tl1, htl1, hps, hgr, hnd1, hkeys, hmnd⟩ :=
      resolveNests_good tl htl ⟨hnde, hnodup.2⟩
    cases v with
    | vdict e => simp [dfV] at hv
    | vminy f e =>
      refine ⟨.cons k (.vminy false (MinyDict.ofDict e)) tl1, ?_, ?_, ?_, ?_, ?_, ?_⟩
      · simp [MinyDict.resolveNests, htl1]
      · simp only [dfV] at hv
        simp [pyStructEqD, pyStructEqV, pyStructEqD_ofDict e, hps]
      · simp only [dfV] at hv
        simp [goodRunD, goodRunV, hk, mfixD_ofDict e, dfD_ofDict e hv, hgr]
      · simp only [ndV] at hndv
        refine ⟨⟨⟨(ndD_ofDict e hndv).1, (ndD_ofDict e hndv).2⟩, hnd1.1⟩, ?_⟩
        simp only [keysD, List.nodup_cons, hkeys]
        exact ⟨hnodup.1, hnodup.2⟩
      · simp [keysD, hkeys]
      · simp [mND, mNV, mND_ofDict e, hmnd]
    | vnone =>
      refine ⟨.cons k .vnone tl1, by simp [MinyDict.resolveNests, htl1],
        by simp [pyStructEqD, pyStructEqV, hps],
        by simp [goodRunD, goodRunV, hk, hgr],
        ⟨⟨trivial, hnd1.1⟩, ?_⟩, by simp [keysD, hkeys], by simp [mND, mNV, hmnd]⟩
      simp only [keysD, List.nodup_cons, hkeys]
      exact ⟨hnodup.1, hnodup.2⟩
    | vbool b =>
      refine ⟨.cons k (.vbool b) tl1, by simp [MinyDict.resolveNests, htl1],
        by simp [pyStructEqD, pyStructEqV, hps],
        by simp [goodRunD, goodRunV, hk, hgr],
        ⟨⟨trivial, hnd1.1⟩, ?_⟩, by simp [keysD, hkeys], by simp [mND, mNV, hmnd]⟩
      simp only [keysD, List.nodup_cons, hkeys]
      exact ⟨hnodup.1, hnodup.2⟩
    | vint nn =>
      refine ⟨.cons k (.vint nn) tl1, by simp [MinyDict.resolveNests, htl1],
        by simp [pyStructEqD, pyStructEqV, hps],
        by simp [goodRunD, goodRunV, hk, hgr],
        ⟨⟨trivial, hnd1.1⟩, ?_⟩, by simp [keysD, hkeys], by simp [mND, mNV, hmnd]⟩
      simp only [keysD, List.nodup_cons, hkeys]
      exact ⟨hnodup.1, hnodup.2⟩
    | vfloat mm ee =>
      refine ⟨.cons k (.vfloat mm ee) tl1, by simp [MinyDict.resolveNests, htl1],
        by simp [pyStructEqD, pyStructEqV, hps],
        by simp [goodRunD, goodRunV, hk, hgr],
        ⟨⟨trivial, hnd1.1⟩, ?_⟩, by simp [keysD, hkeys], by simp [mND, mNV, hmnd]⟩
      simp only [keysD, List.nodup_cons, hkeys]
      exact ⟨hnodup.1, hnodup.2⟩
    | vstr ss =>
      refine ⟨.cons k (.vstr ss) tl1, by simp [MinyDict.resolveNests, htl1],
        by simp [pyStructEqD, pyStructEqV, hps],
        by simp [goodRunD, goodRunV, hk, hgr],
        ⟨⟨trivial, hnd1.1⟩, ?_⟩, by simp [keysD, hkeys], by simp [mND, mNV, hmnd]⟩
      simp only [keysD, List.nodup_cons, hkeys]
      exact ⟨hnodup.1, hnodup.2⟩
    | vlist xs =>
      refine ⟨.cons k (.vlist xs) tl1, by simp [MinyDict.resolveNests, htl1],
        by simp [pyStructEqD, pyStructEqV, pyStructEqL_refl, hps],
        by simp [goodRunD, goodRunV, hk, hgr],
        ⟨⟨trivial, hnd1.1⟩, ?_⟩, by simp [keysD, hkeys], by simp [mND, mNV, hmnd]⟩
      simp only [keysD, List.nodup_cons, hkeys]
      exact ⟨hnodup.1, hnodup.2⟩

theorem resolveNests_frozen_id : ∀ d : PDict, goodRunD true d = true →
    MinyDict.resolveNests true d = .ok d
  | .nil, _ => rfl
  | .cons k v tl, h => by
    simp only [goodRunD, Bool.and_eq_true] at h
    have htl := resolveNests_frozen_id tl h.2
    cases v with
    | vdict e => simp [goodRunV] at h
    | vminy f e => simp [goodRunV] at h
    | vnone => simp [MinyDict.resolveNests, htl]
    | vbool b => simp [MinyDict.resolveNests, htl]
    | vint nn => simp [MinyDict.resolveNests, htl]
    | vfloat mm ee => simp [MinyDict.resolveNests, htl]
    | vstr ss => simp [MinyDict.resolveNests, htl]
    | vlist xs => simp [MinyDict.resolveNests, htl]

theorem dotsMaster : ∀ n : Nat,
    (∀ ks d r, MinyDict.resolveKeys n false ks d = .ok r →
      nrD d = true → ndD d →
      (∀ kv ∈ toL d, kv.1 ∉ ks → containsChar '.' kv.1 = false ∧ dfV kv.2 = true) →
      dfD r = true ∧ ndD r)
    ∧
    (∀ e path v out, MinyDict.walkPath n (.vminy false e) path v = .ok out →
      (∀ p ∈ path, containsChar '.' p = false) →
      nrD e = true → ndD e →
      dfV (MinyDict.setItemCoerce v) = true → ndV (MinyDict.setItemCoerce v) →
      ∃ e2, out = .vminy false e2 ∧ ndD e2 ∧
        ∀ kv ∈ toL e2, kv ∈ toL e ∨
          (containsChar '.' kv.1 = false ∧ dfV kv.2 = true ∧ ndV kv.2)) := by
  intro n
  induction n using Nat.strong_induction_on with
  | _ n ih =>
    have hdots : ∀ (m : Nat) (f : Bool) (e e2 : PDict), m < n →
        MinyDict.resolveDots m f e = .ok e2 →
        nrD e = true → ndD e → dfD e2 = true ∧ ndD e2 := by
      intro m f e e2 hm h hnr hnd
      cases m with
      | zero => simp [MinyDict.resolveDots] at h
      | succ m2 =>
        simp only [MinyDict.resolveDots] at h
        cases f with
        | true =>
          obtain ⟨heq, hgr⟩ := resolveKeys_frozen_id (keysD e) m2 e e2 h hnr hnd.2
            (fun kv hkv hks => absurd (mem_toL_key e kv hkv) hks)
          subst heq
          exact ⟨goodRunD_dfD true e2 hgr, hnd⟩
        | false =>
          exact (ih m2 (by omega)).1 (keysD e) e e2 h hnr hnd
            (fun kv hkv hks => absurd (mem_toL_key e kv hkv) hks)
    constructor
    · intro ks
      cases ks with
      | nil =>
        intro d r h hnr hnd hproc
        have hr : r = d := by cases n <;> simpa [MinyDict.resolveKeys] using h.symm
        subst hr
        refine ⟨(dfD_iff r).mpr ?_, hnd⟩
        intro kv hkv
        exact hproc kv hkv (List.not_mem_nil _)
      | cons k ks =>
        intro d r h hnr hnd hproc
        cases n with
        | zero => simp [MinyDict.resolveKeys] at h
        | succ m =>
          have ihm1 := (ih m (Nat.lt_succ_self m)).1
          have ihm2 := (ih m (Nat.lt_succ_self m)).2
          have walkStep : ∀ (d1 d2 : PDict),
              nrD d1 = true → ndD d1 →
              (∀ kv ∈ toL d1, kv.1 ∉ ks → kv.1 ≠ k →
                containsChar '.' kv.1 = false ∧ dfV kv.2 = true) →
              ndD d2 →
              (∀ kv ∈ toL d2, kv ∈ toL d1 ∨
                (containsChar '.' kv.1 = false ∧ dfV kv.2 = true ∧ ndV kv.2)) →
              MinyDict.resolveKeys m false ks (eraseD d2 k) = .ok r →
              dfD r = true ∧ ndD r := by
            intro d1 d2 hnr1 hnd1 hp1 hnd2 hent hh
            refine ihm1 ks (eraseD d2 k) r hh ?_ (ndD_eraseD d2 k hnd2) ?_
            · rw [nrD_iff]
              intro kv hkv
              rcases hent kv (mem_toL_eraseD d2 k kv hkv) with ho | hg
              · exact (nrD_iff d1).mp hnr1 kv ho
              · exact dfV_nrV kv.2 hg.2.1
            · intro kv hkv hks
              have hne : kv.1 ≠ k := eraseD_key_ne d2 k kv hnd2.2 hkv
              rcases hent kv (mem_toL_eraseD d2 k kv hkv) with ho | hg
              · exact hp1 kv ho hks hne
              · exact ⟨hg.1, hg.2.1⟩
          simp only [MinyDict.resolveKeys] at h
          cases hv : lookupD d k with
          | none =>
            rw [hv] at h
            simp only [Option.getD_none, exceptPure, exceptBind_ok] at h
            have hproc1 : ∀ kv ∈ toL d, kv.1 ∉ ks → kv.1 ≠ k →
                containsChar '.' kv.1 = false ∧ dfV kv.2 = true := by
              intro kv hkv hks hne
              exact hproc kv hkv (by simp [hks, hne])
            by_cases hdot : containsChar '.' k = true
            · rw [if_pos hdot] at h
              cases hww : MinyDict.walkPath m (.vminy false d) (pySplitDots k) .vnone with
              | error er => simp [hww] at h
              | ok w =>
                obtain ⟨d2, hw_eq, hnd2, hent2⟩ := ihm2 d (pySplitDots k) .vnone w hww
                  (pySplitDots_no_dot k) hnr hnd rfl trivial
                subst hw_eq
                simp only [hww, exceptBind_ok] at h
                by_cases hk2 : PDict.hasKey d2 k = true
                · rw [if_pos hk2] at h
                  exact walkStep d d2 hnr hnd hproc1 hnd2 hent2 h
                · rw [if_neg hk2] at h
                  simp at h
            · rw [if_neg hdot] at h
              refine ihm1 ks d r h hnr hnd ?_
              intro kv hkv hks
              by_cases hkk : kv.1 = k
              · exfalso
                obtain ⟨vv, hvv⟩ := key_lookupD d k (hkk ▸ mem_toL_key d kv hkv)
                rw [hv] at hvv
                exact Option.noConfusion hvv
              · exact hproc kv hkv (by simp [hks, hkk])
          | some v0 =>
            rw [hv] at h
            have hmem0 := lookupD_mem_toL d k v0 hv
            have hproc1 : ∀ kv ∈ toL d, kv.1 ∉ ks → kv.1 ≠ k →
                containsChar '.' kv.1 = false ∧ dfV kv.2 = true := by
              intro kv hkv hks hne
              exact hproc kv hkv (by simp [hks, hne])
            cases v0 with
            | vdict dd =>
              have := (nrD_iff d).mp hnr (k, .vdict dd) hmem0
              simp [nrV] at this
            | vminy f e0 =>
              simp only [Option.getD_some] at h
              have hnre0 : nrD e0 = true := by
                have := (nrD_iff d).mp hnr (k, .vminy f e0) hmem0
                simpa [nrV] using this
              have hnde0 : ndD e0 := by
                have := (ndE_iff d).mp hnd.1 (k, .vminy f e0) hmem0
                simpa [ndV] using this
              cases hdm : MinyDict.resolveDots m f e0 with
              | error er => rw [hdm] at h; simp at h
              | ok e0w =>
                rw [hdm] at h
                obtain ⟨hdfe0, hnde0w⟩ :=
                  hdots m f e0 e0w (Nat.lt_succ_self m) hdm hnre0 hnde0
                simp only [exceptBind_ok, MinyDict.setItem, if_false, ite_false,
                  Bool.false_eq_true, exceptPure] at h
                have hcoe : MinyDict.setItemCoerce (PVal.vminy f e0w)
                    = .vminy false (MinyDict.ofDict e0w) := rfl
                rw [hcoe] at h
                have hdfnew : dfV (PVal.vminy false (MinyDict.ofDict e0w)) = true := by
                  simpa [dfV] using dfD_ofDict e0w hdfe0
                have hndnew : ndV (PVal.vminy false (MinyDict.ofDict e0w)) :=
                  ⟨(ndD_ofDict e0w hnde0w).1, (ndD_ofDict e0w hnde0w).2⟩
                have hnr1 : nrD (insertD d k (.vminy false (MinyDict.ofDict e0w))) = true := by
                  rw [nrD_iff]
                  intro kv hkv
                  rcases mem_toL_insertD d k _ kv hkv with he | ho
                  · rw [he]; simpa [nrV] using nrD_ofDict e0w
                  · exact (nrD_iff d).mp hnr kv ho
                have hnd1 : ndD (insertD d k (.vminy false (MinyDict.ofDict e0w))) :=
                  ndD_insertD d k _ hnd hndnew
                have hp1 : ∀ kv ∈ toL (insertD d k (.vminy false (MinyDict.ofDict e0w))),
                    kv.1 ∉ ks → kv.1 ≠ k →
                    containsChar '.' kv.1 = false ∧ dfV kv.2 = true := by
                  intro kv hkv hks hne
                  rcases mem_toL_insertD_nodup d k _ kv hnd.2 hkv with he | ho
                  · exact absurd (by rw [he]) hne
                  · exact hproc kv ho.1 (by simp [hks, hne])
                by_cases hdot : containsChar '.' k = true
                · rw [if_pos hdot] at h
                  cases hww : MinyDict.walkPath m
                      (.vminy false (insertD d k (.vminy false (MinyDict.ofDict e0w))))
                      (pySplitDots k) (.vminy f e0w) with
                  | error er => simp [hww] at h
                  | ok w =>
                    obtain ⟨d2, hw_eq, hnd2, hent2⟩ := ihm2
                      (insertD d k (.vminy false (MinyDict.ofDict e0w)))
                      (pySplitDots k) (.vminy f e0w) w hww
                      (pySplitDots_no_dot k) hnr1 hnd1
                      (by rw [hcoe]; exact hdfnew) (by rw [hcoe]; exact hndnew)
                    subst hw_eq
                    simp only [hww, exceptBind_ok] at h
                    by_cases hk2 : PDict.hasKey d2 k = true
                    · rw [if_pos hk2] at h
                      exact walkStep _ d2 hnr1 hnd1 hp1 hnd2 hent2 h
                    · rw [if_neg hk2] at h
                      simp at h
                · rw [if_neg hdot] at h
                  refine ihm1 ks _ r h hnr1 hnd1 ?_
                  intro kv hkv hks
                  rcases mem_toL_insertD_nodup d k _ kv hnd.2 hkv with he | ho
                  · rw [he]
                    exact ⟨by simpa using hdot, hdfnew⟩
                  · exact hproc kv ho.1 (by simp [hks, ho.2])
            | vnone =>
              simp only [Option.getD_some, exceptPure, exceptBind_ok] at h
              by_cases hdot : containsChar '.' k = true
              · rw [if_pos hdot] at h
                cases hww : MinyDict.walkPath m (.vminy false d) (pySplitDots k) .vnone with
                | error er => simp [hww] at h
                | ok w =>
                  obtain ⟨d2, hw_eq, hnd2, hent2⟩ := ihm2 d (pySplitDots k) .vnone w hww
                    (pySplitDots_no_dot k) hnr hnd rfl trivial
                  subst hw_eq
                  simp only [hww, exceptBind_ok] at h
                  by_cases hk2 : PDict.hasKey d2 k = true
                  · rw [if_pos hk2] at h
                    exact walkStep d d2 hnr hnd hproc1 hnd2 hent2 h
                  · rw [if_neg hk2] at h
                    simp at h
              · rw [if_neg hdot] at h
                refine ihm1 ks d r h hnr hnd ?_
                intro kv hkv hks
                by_cases hkk : kv.1 = k
                · have hlk := nodup_mem_toL_lookup d kv hnd.2 hkv
                  rw [hkk, hv] at hlk
                  refine ⟨by rw [hkk]; simpa using hdot, ?_⟩
                  rw [show kv.2 = PVal.vnone from (Option.some.inj hlk).symm]
                  rfl
                · exact hproc kv hkv (by simp [hks, hkk])
            | vbool b =>
              simp only [Option.getD_some, exceptPure, exceptBind_ok] at h
              by_cases hdot : containsChar '.' k = true
              · rw [if_pos hdot] at h
                cases hww : MinyDict.walkPath m (.vminy false d) (pySplitDots k) (.vbool b) with
                | error er => simp [hww] at h
                | ok w =>
                  obtain ⟨d2, hw_eq, hnd2, hent2⟩ := ihm2 d (pySplitDots k) (.vbool b) w hww
                    (pySplitDots_no_dot k) hnr hnd rfl trivial
                  subst hw_eq
                  simp only [hww, exceptBind_ok] at h
                  by_cases hk2 : PDict.hasKey d2 k = true
                  · rw [if_pos hk2] at h
                    exact walkStep d d2 hnr hnd hproc1 hnd2 hent2 h
                  · rw [if_neg hk2] at h
                    simp at h
              · rw [if_neg hdot] at h
                refine ihm1 ks d r h hnr hnd ?_
                intro kv hkv hks
                by_cases hkk : kv.1 = k
                · have hlk := nodup_mem_toL_lookup d kv hnd.2 hkv
                  rw [hkk, hv] at hlk
                  refine ⟨by rw [hkk]; simpa using hdot, ?_⟩
                  rw [show kv.2 = PVal.vbool b from (Option.some.inj hlk).symm]
                  rfl
                · exact hproc kv hkv (by simp [hks, hkk])
            | vint nn =>
              simp only [Option.getD_some, exceptPure, exceptBind_ok] at h
              by_cases hdot : containsChar '.' k = true
              · rw [if_pos hdot] at h
                cases hww : MinyDict.walkPath m (.vminy false d) (pySplitDots k) (.vint nn) with
                | error er => simp [hww] at h
                | ok w =>
                  obtain ⟨d2, hw_eq, hnd2, hent2⟩ := ihm2 d (pySplitDots k) (.vint nn) w hww
                    (pySplitDots_no_dot k) hnr hnd rfl trivial
                  subst hw_eq
                  simp only [hww, exceptBind_ok] at h
                  by_cases hk2 : PDict.hasKey d2 k = true
                  · rw [if_pos hk2] at h
                    exact walkStep d d2 hnr hnd hproc1 hnd2 hent2 h
                  · rw [if_neg hk2] at h
                    simp at h
              · rw [if_neg hdot] at h
                refine ihm1 ks d r h hnr hnd ?_
                intro kv hkv hks
                by_cases hkk : kv.1 = k
                · have hlk := nodup_mem_toL_lookup d kv hnd.2 hkv
                  rw [hkk, hv] at hlk
                  refine ⟨by rw [hkk]; simpa using hdot, ?_⟩
                  rw [show kv.2 = PVal.vint nn from (Option.some.inj hlk).symm]
                  rfl
                · exact hproc kv hkv (by simp [hks, hkk])
            | vfloat mm ee =>
              simp only [Option.getD_some, exceptPure, exceptBind_ok] at h
              by_cases hdot : containsChar '.' k = true
              · rw [if_pos hdot] at h
                cases hww : MinyDict.walkPath m (.vminy false d) (pySplitDots k) (.vfloat mm ee) with
                | error er => simp [hww] at h
                | ok w =>
                  obtain ⟨d2, hw_eq, hnd2, hent2⟩ := ihm2 d (pySplitDots k) (.vfloat mm ee) w hww
                    (pySplitDots_no_dot k) hnr hnd rfl trivial
                  subst hw_eq
                  simp only [hww, exceptBind_ok] at h
                  by_cases hk2 : PDict.hasKey d2 k = true
                  · rw [if_pos hk2] at h
                    exact walkStep d d2 hnr hnd hproc1 hnd2 hent2 h
                  · rw [if_neg hk2] at h
                    simp at h
              · rw [if_neg hdot] at h
                refine ihm1 ks d r h hnr hnd ?_
                intro kv hkv hks
                by_cases hkk : kv.1 = k
                · have hlk := nodup_mem_toL_lookup d kv hnd.2 hkv
                  rw [hkk, hv] at hlk
                  refine ⟨by rw [hkk]; simpa using hdot, ?_⟩
                  rw [show kv.2 = PVal.vfloat mm ee from (Option.some.inj hlk).symm]
                  rfl
                · exact hproc kv hkv (by simp [hks, hkk])
            | vstr ss =>
              simp only [Option.getD_some, exceptPure, exceptBind_ok] at h
              by_cases hdot : containsChar '.' k = true
              · rw [if_pos hdot] at h
                cases hww : MinyDict.walkPath m (.vminy false d) (pySplitDots k) (.vstr ss) with
                | error er => simp [hww] at h
                | ok w =>
                  obtain ⟨d2, hw_eq, hnd2, hent2⟩ := ihm2 d (pySplitDots k) (.vstr ss) w hww
                    (pySplitDots_no_dot k) hnr hnd rfl trivial
                  subst hw_eq
                  simp only [hww, exceptBind_ok] at h
                  by_cases hk2 : PDict.hasKey d2 k = true
                  · rw [if_pos hk2] at h
                    exact walkStep d d2 hnr hnd hproc1 hnd2 hent2 h
                  · rw [if_neg hk2] at h
                    simp at h
              · rw [if_neg hdot] at h
                refine ihm1 ks d r h hnr hnd ?_
                intro kv hkv hks
                by_cases hkk : kv.1 = k
                · have hlk := nodup_mem_toL_lookup d kv hnd.2 hkv
                  rw [hkk, hv] at hlk
                  refine ⟨by rw [hkk]; simpa using hdot, ?_⟩
                  rw [show kv.2 = PVal.vstr ss from (Option.some.inj hlk).symm]
                  rfl
                · exact hproc kv hkv (by simp [hks, hkk])
            | vlist xs =>
              simp only [Option.getD_some, exceptPure, exceptBind_ok] at h
              by_cases hdot : containsChar '.' k = true
              · rw [if_pos hdot] at h
                cases hww : MinyDict.walkPath m (.vminy false d) (pySplitDots k) (.vlist xs) with
                | error er => simp [hww] at h
                | ok w =>
                  obtain ⟨d2, hw_eq, hnd2, hent2⟩ := ihm2 d (pySplitDots k) (.vlist xs) w hww
                    (pySplitDots_no_dot k) hnr hnd rfl trivial
                  subst hw_eq
                  simp only [hww, exceptBind_ok] at h
                  by_cases hk2 : PDict.hasKey d2 k = true
                  · rw [if_pos hk2] at h
                    exact walkStep d d2 hnr hnd hproc1 hnd2 hent2 h
                  · rw [if_neg hk2] at h
                    simp at h
              · rw [if_neg hdot] at h
                refine ihm1 ks d r h hnr hnd ?_
                intro kv hkv hks
                by_cases hkk : kv.1 = k
                · have hlk := nodup_mem_toL_lookup d kv hnd.2 hkv
                  rw [hkk, hv] at hlk
                  refine ⟨by rw [hkk]; simpa using hdot, ?_⟩
                  rw [show kv.2 = PVal.vlist xs from (Option.some.inj hlk).symm]
                  rfl
                · exact hproc kv hkv (by simp [hks, hkk])
    · intro e path v out h hpath hnr hnd hdfv hndv
      cases path with
      | nil =>
        have hout : out = .vminy false e := by
          cases n <;> simpa [MinyDict.walkPath] using h.symm
        exact ⟨e, hout, hnd, fun kv hkv => Or.inl hkv⟩
      | cons s1 rest =>
        cases n with
        | zero => simp [MinyDict.walkPath] at h
        | succ m =>
          have ihm2 := (ih m (Nat.lt_succ_self m)).2
          cases rest with
          | nil =>
            simp [MinyDict.walkPath, MinyDict.setAnyItem, MinyDict.setItem] at h
            refine ⟨insertD e s1 (MinyDict.setItemCoerce v), h.symm,
              ndD_insertD e s1 _ hnd hndv, ?_⟩
            intro kv hkv
            rcases mem_toL_insertD e s1 _ kv hkv with he | ho
            · refine Or.inr ?_
              rw [he]
              exact ⟨hpath s1 (List.mem_cons_self s1 []), hdfv, hndv⟩
            · exact Or.inl ho
          | cons s2 rest2 =>
            have hs1dot : containsChar '.' s1 = false :=
              hpath s1 (List.mem_cons_self s1 (s2 :: rest2))
            have hpath2 : ∀ p ∈ s2 :: rest2, containsChar '.' p = false :=
              fun p hp => hpath p (List.mem_cons_of_mem s1 hp)
            have minyStep : ∀ (e1 mm : PDict) (f : Bool) (mw : PDict) (inner : PVal),
                nrD e1 = true → ndD e1 →
                (∀ kv ∈ toL e1, kv ∈ toL e ∨
                  (containsChar '.' kv.1 = false ∧ dfV kv.2 = true ∧ ndV kv.2)) →
                lookupD e1 s1 = some (.vminy f mm) →
                MinyDict.resolveDots m f mm = .ok mw →
                MinyDict.walkPath m (.vminy false (MinyDict.ofDict mw)) (s2 :: rest2) v
                  = .ok inner →
                out = .vminy false
                  (insertD (insertD e1 s1 (.vminy false (MinyDict.ofDict mw))) s1 inner) →
                ∃ e2, out = .vminy false e2 ∧ ndD e2 ∧
                  ∀ kv ∈ toL e2, kv ∈ toL e ∨
                    (containsChar '.' kv.1 = false ∧ dfV kv.2 = true ∧ ndV kv.2) := by
              intro e1 mm f mw inner hnr1 hnd1 hent1 hlk hdm hw hout
              have hmm : nrD mm = true ∧ ndD mm := by
                rcases hent1 (s1, .vminy f mm) (lookupD_mem_toL e1 s1 _ hlk) with ho | hg
                · exact ⟨by simpa [nrV] using (nrD_iff e).mp hnr _ ho,
                    by simpa [ndV] using (ndE_iff e).mp hnd.1 _ ho⟩
                · exact ⟨by simpa [nrV] using dfV_nrV _ hg.2.1,
                    by simpa [ndV] using hg.2.2⟩
              obtain ⟨hdfmw, hndmw⟩ :=
                hdots m f mm mw (Nat.lt_succ_self m) hdm hmm.1 hmm.2
              obtain ⟨e3, hin_eq, hnd3, hent3⟩ := ihm2 (MinyDict.ofDict mw)
                (s2 :: rest2) v inner hw hpath2
                (nrD_ofDict mw) (ndD_ofDict mw hndmw) hdfv hndv
              have hdfof : dfD (MinyDict.ofDict mw) = true := dfD_ofDict mw hdfmw
              have hall3 : ∀ kv ∈ toL e3,
                  containsChar '.' kv.1 = false ∧ dfV kv.2 = true ∧ ndV kv.2 := by
                intro kv hkv
                rcases hent3 kv hkv with ho | hg
                · have hdd := (dfD_iff (MinyDict.ofDict mw)).mp hdfof kv ho
                  have hnn := (ndE_iff (MinyDict.ofDict mw)).mp (ndD_ofDict mw hndmw).1 kv ho
                  exact ⟨hdd.1, hdd.2, hnn⟩
                · exact hg
              have hdf3 : dfD e3 = true :=
                (dfD_iff e3).mpr (fun kv hkv => ⟨(hall3 kv hkv).1, (hall3 kv hkv).2.1⟩)
              have hndmwV : ndV (PVal.vminy false (MinyDict.ofDict mw)) :=
                ⟨(ndD_ofDict mw hndmw).1, (ndD_ofDict mw hndmw).2⟩
              subst hin_eq
              refine ⟨_, hout, ?_, ?_⟩
              · exact ndD_insertD _ s1 _
                  (ndD_insertD e1 s1 _ hnd1 hndmwV) ⟨hnd3.1, hnd3.2⟩
              · intro kv hkv
                rcases mem_toL_insertD _ s1 _ kv hkv with he | ho
                · refine Or.inr ?_
                  rw [he]
                  exact ⟨hs1dot, by simpa [dfV] using hdf3, ⟨hnd3.1, hnd3.2⟩⟩
                · rcases mem_toL_insertD e1 s1 _ kv ho with he2 | ho2
                  · refine Or.inr ?_
                    rw [he2]
                    exact ⟨hs1dot, by simpa [dfV] using hdfof, hndmwV⟩
                  · exact hent1 kv ho2
            simp only [MinyDict.walkPath] at h
            by_cases hhk : e.hasKey s1 = true
            · simp only [hhk, if_true, ite_true, exceptPure, exceptBind_ok] at h
              cases hlk : lookupD e s1 with
              | none => simp [PDict.hasKey, hlk] at hhk
              | some v2 =>
                rw [hlk] at h
                cases v2 with
                | vminy f mm =>
                  cases hdm : MinyDict.resolveDots m f mm with
                  | error er => simp [hdm] at h
                  | ok mw =>
                    simp only [hdm, exceptBind_ok, MinyDict.setItem, if_false, ite_false,
                      Bool.false_eq_true, exceptPure] at h
                    have hcoe : MinyDict.setItemCoerce (PVal.vminy f mw)
                        = .vminy false (MinyDict.ofDict mw) := rfl
                    rw [hcoe] at h
                    cases hw : MinyDict.walkPath m (.vminy false (MinyDict.ofDict mw))
                        (s2 :: rest2) v with
                    | error er => simp [hw] at h
                    | ok inner =>
                      rw [hw] at h
                      simp only [exceptBind_ok] at h
                      exact minyStep e mm f mw inner hnr hnd
                        (fun kv hkv => Or.inl hkv) hlk hdm hw (Except.ok.inj h).symm
                | vdict dd =>
                  have := (nrD_iff e).mp hnr (s1, .vdict dd) (lookupD_mem_toL e s1 _ hlk)
                  simp [nrV] at this
                | vnone =>
                  cases hw : MinyDict.walkPath m .vnone (s2 :: rest2) v with
                  | error er => simp [hw] at h
                  | ok iv =>
                    rcases walkPath_cons_ok_shape m .vnone s2 rest2 v iv hw with
                      ⟨f, e3, h3⟩ | ⟨e3, h3⟩ <;> exact PVal.noConfusion h3
                | vbool b =>
                  cases hw : MinyDict.walkPath m (.vbool b) (s2 :: rest2) v with
                  | error er => simp [hw] at h
                  | ok iv =>
                    rcases walkPath_cons_ok_shape m (.vbool b) s2 rest2 v iv hw with
                      ⟨f, e3, h3⟩ | ⟨e3, h3⟩ <;> exact PVal.noConfusion h3
                | vint nn =>
                  cases hw : MinyDict.walkPath m (.vint nn) (s2 :: rest2) v with
                  | error er => simp [hw] at h
                  | ok iv =>
                    rcases walkPath_cons_ok_shape m (.vint nn) s2 rest2 v iv hw with
                      ⟨f, e3, h3⟩ | ⟨e3, h3⟩ <;> exact PVal.noConfusion h3
                | vfloat mm ee =>
                  cases hw : MinyDict.walkPath m (.vfloat mm ee) (s2 :: rest2) v with
                  | error er => simp [hw] at h
                  | ok iv =>
                    rcases walkPath_cons_ok_shape m (.vfloat mm ee) s2 rest2 v iv hw with
                      ⟨f, e3, h3⟩ | ⟨e3, h3⟩ <;> exact PVal.noConfusion h3
                | vstr ss =>
                  cases hw : MinyDict.walkPath m (.vstr ss) (s2 :: rest2) v with
                  | error er => simp [hw] at h
                  | ok iv =>
                    rcases walkPath_cons_ok_shape m (.vstr ss) s2 rest2 v iv hw with
                      ⟨f, e3, h3⟩ | ⟨e3, h3⟩ <;> exact PVal.noConfusion h3
                | vlist xs =>
                  cases hw : MinyDict.walkPath m (.vlist xs) (s2 :: rest2) v with
                  | error er => simp [hw] at h
                  | ok iv =>
                    rcases walkPath_cons_ok_shape m (.vlist xs) s2 rest2 v iv hw with
                      ⟨f, e3, h3⟩ | ⟨e3, h3⟩ <;> exact PVal.noConfusion h3
            · simp only [hhk, if_false, ite_false, MinyDict.setItem, if_true, ite_true,
                Bool.false_eq_true, exceptPure, exceptBind_ok] at h
              have hcoe0 : MinyDict.setItemCoerce (PVal.vminy false PDict.nil)
                  = .vminy false PDict.nil := rfl
              rw [hcoe0] at h
              have hlkni : lookupD (insertD e s1 (.vminy false PDict.nil)) s1
                  = some (.vminy false PDict.nil) := by
                rw [lookup_insert]
                simp
              rw [hlkni] at h
              have hnr1 : nrD (insertD e s1 (.vminy false PDict.nil)) = true := by
                rw [nrD_iff]
                intro kv hkv
                rcases mem_toL_insertD e s1 _ kv hkv with he | ho
                · rw [he]; rfl
                · exact (nrD_iff e).mp hnr kv ho
              have hnd1 : ndD (insertD e s1 (.vminy false PDict.nil)) :=
                ndD_insertD e s1 _ hnd ⟨trivial, List.nodup_nil⟩
              have hent1 : ∀ kv ∈ toL (insertD e s1 (.vminy false PDict.nil)),
                  kv ∈ toL e ∨
                  (containsChar '.' kv.1 = false ∧ dfV kv.2 = true ∧ ndV kv.2) := by
                intro kv hkv
                rcases mem_toL_insertD e s1 _ kv hkv with he | ho
                · refine Or.inr ?_
                  rw [he]
                  exact ⟨hs1dot, rfl, ⟨trivial, List.nodup_nil⟩⟩
                · exact Or.inl ho
              cases hdm : MinyDict.resolveDots m false PDict.nil with
              | error er => simp [hdm] at h
              | ok mw =>
                simp only [hdm, exceptBind_ok, MinyDict.setItem, if_false, ite_false,
                  Bool.false_eq_true, exceptPure] at h
                have hcoe : MinyDict.setItemCoerce (PVal.vminy false mw)
                    = .vminy false (MinyDict.ofDict mw) := rfl
                rw [hcoe] at h
                cases hw : MinyDict.walkPath m (.vminy false (MinyDict.ofDict mw))
                    (s2 :: rest2) v with
                | error er => simp [hw] at h
                | ok inner =>
                  rw [hw] at h
                  simp only [exceptBind_ok] at h
                  exact minyStep (insertD e s1 (.vminy false PDict.nil)) PDict.nil
                    false mw inner hnr1 hnd1 hent1 hlkni hdm hw (Except.ok.inj h).symm

theorem mapArgvGo_allow_ok (toks : List String) :
    ∀ (acc : PDict) (warns : List String) (w : Bool),
    ∃ res ws, Parser.mapArgvGo true w toks acc warns = .ok (res, ws) := by
  induction toks with
  | nil => intro acc warns w; exact ⟨acc, warns, rfl⟩
  | cons arg rest ih =>
    intro acc warns w
    rcases htk : Parser.tokKV arg with ⟨k1, v1⟩
    by_cases h : hasKey acc k1 = true <;>
      simp [Parser.mapArgvGo, htk, h, ih]

theorem mapArgvGo_lastWins (toks : List String) :
    ∀ (acc : PDict) (warns : List String) (w : Bool) (res : PDict) (ws : List String)
      (k : String),
    Parser.mapArgvGo true w toks acc warns = .ok (res, ws) →
    lookupD res k
      = match toks.reverse.find? (fun t => Parser.tokKey t == k) with
        | some t => some (Parser.tokKV t).2
        | none => lookupD acc k := by
  induction toks with
  | nil =>
    intro acc warns w res ws k h
    simp [Parser.mapArgvGo] at h
    simp [← h.1]
  | cons arg rest ih =>
    intro acc warns w res ws k h
    rcases htk : Parser.tokKV arg with ⟨k1, v1⟩
    have hk1 : Parser.tokKey arg = k1 := by rw [Parser.tokKey, htk]
    by_cases hdup : hasKey acc k1 = true <;>
      simp only [Parser.mapArgvGo, htk, hdup, Bool.not_true, Bool.not_false,
        if_true, if_false, ite_true, ite_false, Bool.false_eq_true] at h <;>
    · have hlk := ih _ _ w res ws k h
      rw [List.reverse_cons, List.find?_append]
      rcases hfr : rest.reverse.find? (fun t => Parser.tokKey t == k) with _ | t
      · rw [hfr] at hlk
        by_cases hkk : k1 = k
        · subst hkk
          simp only at hlk
          simp [List.find?, hk1, hlk, lookup_insert, htk]
        · have hbe : (Parser.tokKey arg == k) = false := by
            simp [hk1]; exact hkk
          simp only at hlk
          simp [List.find?, hbe, hlk, lookup_insert, hkk]
      · rw [hfr] at hlk
        simp [hlk]

theorem mapArgvGo_silent (toks : List String) :
    ∀ (acc : PDict) (warns : List String) (res : PDict) (ws : List String),
    Parser.mapArgvGo true false toks acc warns = .ok (res, ws) → ws = warns := by
  induction toks with
  | nil => intro acc warns res ws h; simp [Parser.mapArgvGo] at h; exact h.2.symm
  | cons arg rest ih =>
    intro acc warns res ws h
    rcases htk : Parser.tokKV arg with ⟨k1, v1⟩
    by_cases hdup : hasKey acc k1 = true <;>
      simp only [Parser.mapArgvGo, htk, hdup, Bool.not_true, if_true, if_false,
        ite_true, ite_false, Bool.false_eq_true, List.append_nil] at h <;>
      exact ih _ _ _ _ h

theorem mapArgvGo_warnCount (toks : List String) :
    ∀ (acc : PDict) (warns : List String) (res : PDict) (ws : List String),
    Parser.mapArgvGo true true toks acc warns = .ok (res, ws) →
    ws.length + PDict.sizeD res = warns.length + toks.length + PDict.sizeD acc := by
  induction toks with
  | nil =>
    intro acc warns res ws h
    simp [Parser.mapArgvGo] at h
    simp [← h.1, ← h.2]
  | cons arg rest ih =>
    intro acc warns res ws h
    rcases htk : Parser.tokKV arg with ⟨k1, v1⟩
    by_cases hdup : hasKey acc k1 = true <;>
      simp only [Parser.mapArgvGo, htk, hdup, Bool.not_true, if_true, if_false,
        ite_true, ite_false, Bool.false_eq_true] at h
    case pos =>
      have hs := ih _ _ _ _ h
      rw [sizeD_insert] at hs
      simp only [hdup, if_true, ite_true, List.length_append, List.length_cons,
        List.length_nil] at hs
      simp only [List.length_cons]
      omega
    case neg =>
      have hfalse : hasKey acc k1 = false := by
        rw [← Bool.not_eq_true]; exact hdup
      have hs := ih _ _ _ _ h
      rw [sizeD_insert] at hs
      simp only [hfalse, Bool.false_eq_true, if_false, ite_false] at hs
      simp only [List.length_cons]
      omega

theorem mapArgvGo_nodup_ok (toks : List String) :
    ∀ (acc : PDict) (warns : List String) (w : Bool),
    (keysD acc ++ toks.map Parser.tokKey).Nodup →
    ∃ res ws, Parser.mapArgvGo false w toks acc warns = .ok (res, ws) := by
  induction toks with
  | nil => intro acc warns w _; exact ⟨acc, warns, rfl⟩
  | cons arg rest ih =>
    intro acc warns w hnd
    rcases htk : Parser.tokKV arg with ⟨k1, v1⟩
    have hk1 : Parser.tokKey arg = k1 := by rw [Parser.tokKey, htk]
    rw [List.map_cons, hk1, List.append_cons] at hnd
    have hnotin : k1 ∉ keysD acc := by
      intro hmem
      have hnd1 : (keysD acc ++ [k1]).Nodup := hnd.of_append_left
      exact (List.nodup_append.mp hnd1).2.2 hmem (by simp)
    have hfalse : hasKey acc k1 = false := by
      rw [← Bool.not_eq_true]
      exact fun hh => hnotin ((hasKey_iff_mem acc k1).mp hh)
    have hnd2 : (keysD (insertD acc k1 v1) ++ rest.map Parser.tokKey).Nodup := by
      rw [keysD_insert_not_mem acc k1 v1 hfalse]
      exact hnd
    obtain ⟨res, ws, hres⟩ := ih (insertD acc k1 v1) warns w hnd2
    exact ⟨res, ws, by simp [Parser.mapArgvGo, htk, hfalse, hres]⟩

theorem mapArgvGo_not_nodup_error (toks : List String) :
    ∀ (acc : PDict) (warns : List String) (w : Bool),
    (keysD acc).Nodup →
    ¬(keysD acc ++ toks.map Parser.tokKey).Nodup →
    ∃ k, Parser.mapArgvGo false w toks acc warns = .error (.duplicateArgument k) := by
  induction toks with
  | nil =>
    intro acc warns w hacc hnd
    exact absurd (by simpa using hacc) hnd
  | cons arg rest ih =>
    intro acc warns w hacc hnd
    rcases htk : Parser.tokKV arg with ⟨k1, v1⟩
    have hk1 : Parser.tokKey arg = k1 := by rw [Parser.tokKey, htk]
    by_cases hdup : hasKey acc k1 = true
    · exact ⟨k1, by simp [Parser.mapArgvGo, htk, hdup]⟩
    · have hfalse : hasKey acc k1 = false := by
        rw [← Bool.not_eq_true]; exact fun hh => hdup hh
      have hnotin : k1 ∉ keysD acc :=
        fun hmem => hdup ((hasKey_iff_mem acc k1).mpr hmem)
      have hacc' : (keysD (insertD acc k1 v1)).Nodup := by
        rw [keysD_insert_not_mem acc k1 v1 hfalse]
        exact List.Nodup.append hacc (List.nodup_singleton k1)
          (by simpa [List.disjoint_singleton] using hnotin)
      have hnd' : ¬(keysD (insertD acc k1 v1) ++ rest.map Parser.tokKey).Nodup := by
        rw [keysD_insert_not_mem acc k1 v1 hfalse]
        rw [List.map_cons, hk1, List.append_cons] at hnd
        exact hnd
      obtain ⟨k, hk⟩ := ih (insertD acc k1 v1) warns w hacc' hnd'
      refine ⟨k, ?_⟩
      simp only [Parser.mapArgvGo, htk, hfalse, Bool.false_eq_true, if_false, ite_false]
      exact hk

theorem mapArgvGo_dup_named (toks : List String) :
    ∀ (acc : PDict) (warns : List String) (w : Bool) (k : String),
    Parser.mapArgvGo false w toks acc warns = .error (.duplicateArgument k) →
    1 ≤ (toks.map Parser.tokKey).count k
      ∧ (k ∈ keysD acc ∨ 2 ≤ (toks.map Parser.tokKey).count k) := by
  induction toks with
  | nil => intro acc warns w k h; simp [Parser.mapArgvGo] at h
  | cons arg rest ih =>
    intro acc warns w k h
    rcases htk : Parser.tokKV arg with ⟨k1, v1⟩
    have hk1 : Parser.tokKey arg = k1 := by rw [Parser.tokKey, htk]
    by_cases hdup : hasKey acc k1 = true
    · have herr : Parser.mapArgvGo false w (arg :: rest) acc warns
          = .error (.duplicateArgument k1) := by
        simp [Parser.mapArgvGo, htk, hdup]
      rw [herr] at h
      have hk1k : k1 = k := Err.duplicateArgument.inj (Except.error.inj h)
      subst hk1k
      have hcnt : 1 ≤ ((arg :: rest).map Parser.tokKey).count k1 := by
        simp [List.count_cons, hk1]
      exact ⟨hcnt, Or.inl ((hasKey_iff_mem acc k1).mp hdup)⟩
    · have hfalse : hasKey acc k1 = false := by
        rw [← Bool.not_eq_true]; exact fun hh => hdup hh
      simp only [Parser.mapArgvGo, htk, hfalse, Bool.false_eq_true, if_false,
        ite_false] at h
      obtain ⟨h1, h2⟩ := ih _ _ w k h
      have hmono : (rest.map Parser.tokKey).count k
          ≤ ((arg :: rest).map Parser.tokKey).count k := by
        simp only [List.map_cons, List.count_cons]
        omega
      refine ⟨le_trans h1 hmono, ?_⟩
      rcases h2 with hmem | h2
      · rw [keysD_insert_not_mem acc k1 v1 hfalse] at hmem
        rcases List.mem_append.mp hmem with hmem | hmem
        · exact Or.inl hmem
        · have hk1k : k1 = k := List.mem_singleton.mp hmem |>.symm
          subst hk1k
          refine Or.inr ?_
          have hstep : ((arg :: rest).map Parser.tokKey).count k1
              = (rest.map Parser.tokKey).count k1 + 1 := by
            simp [List.count_cons, hk1]
          omega
      · refine Or.inr (le_trans h2 hmono)

/-! ## Claims -/

/-! ## Claims -/

/-- C1: the claim states that environment substitution leaves an
unresolved `$VAR` in place verbatim whether or not the warn flag is set.
This is the code's behaviour only when the flag is set (first conjunct);
with warnings disabled, the `else` branch of `set_env` calls
`value.replace("$" + arg_var, None)` and raises `TypeError` instead of
returning the value (second conjunct) — the code contradicts its own
documentation of `warn_env` as only controlling a printed warning. -/
theorem claim_C1 :
    (∀ s : String, ∃ ws, Parser.setEnv (fun _ => none) true (.vstr s) = .ok (.vstr s, ws))
    ∧ Parser.setEnv (fun _ => none) false (.vstr "$NOPE") = .error .typeErr := by
  refine ⟨fun s => ?_, rfl⟩
  exact ⟨(Parser.scanVars s.data none).map Parser.envWarnText,
    by simp [Parser.setEnv, envSubstGo_none_warn, Except.map]⟩

/-- C2 (counterexample): deleting an existing key from a frozen `MinyDict`
succeeds — `dict.__delitem__` is not overridden and never consults the
`_frozen` flag — contradicting the claim that deletion is rejected while
the map is frozen. -/
theorem claim_C2_cex :
    MinyDict.delItem true (MinyDict.freezeD true (.cons "a" (.vint 1) .nil)) "a"
      = .ok .nil := rfl

/-- C2 (amended): while frozen, item assignment and attribute assignment
of a non-protected name are rejected with the frozen-mutation error, and
`freeze` propagates the flag to every nested `MinyDict` entry value; but
deletion of an existing key is not guarded and succeeds regardless of the
frozen flag. -/
theorem claim_C2 :
    (∀ d k v, MinyDict.setItem true d k v = .error .attributeFrozen)
    ∧ (∀ d k v, k ∉ MinyDict.protectedNames →
        MinyDict.setAttr true d k v = .error .attributeFrozen)
    ∧ (∀ d, allMinyFrozenD (MinyDict.freezeD true d) = true)
    ∧ (∀ fz d k, hasKey d k = true → MinyDict.delItem fz d k = .ok (eraseD d k)) := by
  refine ⟨fun d k v => rfl, fun d k v h => ?_, freezeD_allFrozen, fun fz d k h => ?_⟩
  · simp [MinyDict.setAttr, h, MinyDict.setItem]
  · simp [MinyDict.delItem, h]

/-- C2 (witness): the amended theorem applied to a concrete frozen map. -/
theorem claim_C2_witness :
    MinyDict.setAttr true (.cons "a" (.vint 1) .nil) "b" (.vint 2) = .error .attributeFrozen
    ∧ MinyDict.delItem true (.cons "a" (.vint 1) .nil) "a" = .ok .nil :=
  ⟨claim_C2.2.1 _ "b" _ (by decide), claim_C2.2.2.2 true _ "a" (by decide)⟩

/-- C3 (counterexample): `update({"a": 1, "b": 2}, strict=True)` on the
target `{"a": 0}` raises the strict-merge `KeyError` naming `"b"`, but by
the time it raises, the entry `"a"` has already been overwritten to `1` —
the partial merge is observable, contradicting the claim that the target
is left unmodified on failure. -/
theorem claim_C3_cex :
    MinyDict.update 10 false (.cons "a" (.vint 0) .nil)
        (.cons "a" (.vint 1) (.cons "b" (.vint 2) .nil)) true
      = .error (.keyErr "b", .cons "a" (.vint 1) .nil)
    ∧ (PDict.cons "a" (.vint 1) .nil) ≠ (.cons "a" (.vint 0) .nil) := ⟨rfl, by decide⟩

/-- C3 (amended): `update(other, strict=True)` fails with the strict-merge
`KeyError` naming the first key of the incoming mapping whose strict
check fails, and on that failure the target holds the merge of the
entries that preceded the failing key — partial merge from the same
top-level call is observable. -/
theorem claim_C3 (n : Nat) (fz : Bool) (st pre post : PDict) (k : String) (v : PVal)
    (st' : PDict)
    (hpre : MinyDict.update n fz st pre true = .ok st')
    (habs : hasKey st' k = false)
    (hfuel : 0 < n - PDict.sizeD pre) :
    MinyDict.update n fz st (appendD pre (.cons k v post)) true
      = .error (.keyErr k, st') := by
  rw [update_append, hpre]
  obtain ⟨m, hm⟩ : ∃ m, n - PDict.sizeD pre = m + 1 :=
    ⟨_, (Nat.succ_pred_eq_of_pos hfuel).symm⟩
  rw [hm]
  simp [MinyDict.update, habs]

/-- C3 (witness): the amended theorem at the counterexample input. -/
theorem claim_C3_witness :
    MinyDict.update 10 false (.cons "a" (.vint 0) .nil)
        (appendD (.cons "a" (.vint 1) .nil) (.cons "b" (.vint 2) .nil)) true
      = .error (.keyErr "b", .cons "a" (.vint 1) .nil) :=
  claim_C3 10 false (.cons "a" (.vint 0) .nil) (.cons "a" (.vint 1) .nil) .nil
    "b" (.vint 2) (.cons "a" (.vint 1) .nil) rfl (by decide) (by decide)

/-- C4 (counterexample): a list assigned directly through `__setitem__` is
stored verbatim, so a raw mapping inside it survives the assignment,
contradicting the claim that after any assignment the tree contains no
raw mapping. -/
theorem claim_C4_cex :
    MinyDict.setItem false .nil "x" (.vlist (.cons (.vdict .nil) .nil))
      = .ok (.cons "x" (.vlist (.cons (.vdict .nil) .nil)) .nil)
    ∧ hasRawD (.cons "x" (.vlist (.cons (.vdict .nil) .nil)) .nil) = true := ⟨rfl, rfl⟩

/-- C4 (amended): a mapping assigned as a value is coerced to a `MinyDict`
at assignment time, and when the assigned mapping is plain data the
stored tree contains no raw mapping (the coercion reaches mappings inside
sequences nested in the assigned mapping); but a sequence assigned
directly as the value is stored verbatim, so mappings inside it are not
coerced. -/
theorem claim_C4 :
    (∀ d k e, MinyDict.setItem false d k (.vdict e)
        = .ok (insertD d k (.vminy false (MinyDict.ofDict e))))
    ∧ (∀ e, plainD e = true → hasRawD (MinyDict.ofDict e) = false)
    ∧ (∀ d k xs, MinyDict.setItem false d k (.vlist xs) = .ok (insertD d k (.vlist xs))) :=
  ⟨fun _ _ _ => rfl, fun e h => plain_ofDict_noRaw e h, fun _ _ _ => rfl⟩

/-- C4 (witness): the amended theorem at a concrete plain mapping with a
sequence-nested mapping inside. -/
theorem claim_C4_witness :
    MinyDict.setItem false .nil "x" (.vdict (.cons "a" (.vlist (.cons (.vdict .nil) .nil)) .nil))
      = .ok (.cons "x" (.vminy false (.cons "a" (.vlist (.cons (.vminy false .nil) .nil)) .nil)) .nil)
    ∧ hasRawD (MinyDict.ofDict (.cons "a" (.vlist (.cons (.vdict .nil) .nil)) .nil)) = false :=
  ⟨claim_C4.1 .nil "x" _, claim_C4.2.1 _ (by decide)⟩

/-- C5: behaviour of `map_argv` on repeated keys.  With overwrites
disallowed, a token list with a repeated key fails with the
duplicate-argument error naming a key that indeed repeats, and a list
without repetition succeeds.  With overwrites allowed, mapping always
succeeds, the stored value of every key is that of the last token with
that key, no warning is emitted when warnings are off, and with warnings
on there is exactly one warning per repetition (warnings plus distinct
keys add up to the token count).  The `["a=2", "a=3"]` example maps to
`{"a": "3"}` with one warning, and errors when overwrites are
disallowed. -/
theorem claim_C5 :
    (∀ (toks : List String) (w : Bool), ¬(toks.map Parser.tokKey).Nodup →
      ∃ k, Parser.mapArgv toks false w = .error (.duplicateArgument k)
        ∧ 2 ≤ (toks.map Parser.tokKey).count k)
    ∧ (∀ (toks : List String) (w : Bool), (toks.map Parser.tokKey).Nodup →
      ∃ res ws, Parser.mapArgv toks false w = .ok (res, ws))
    ∧ (∀ (toks : List String) (w : Bool),
      ∃ res ws, Parser.mapArgv toks true w = .ok (res, ws)
        ∧ (∀ k, lookupD res k
            = match toks.reverse.find? (fun t => Parser.tokKey t == k) with
              | some t => some (Parser.tokKV t).2
              | none => none)
        ∧ (w = false → ws = [])
        ∧ (w = true → ws.length + PDict.sizeD res = toks.length))
    ∧ Parser.mapArgv ["a=2", "a=3"] true true
        = .ok (.cons "a" (.vstr "3") .nil, [Parser.overwriteWarnText "a"])
    ∧ (∀ w, Parser.mapArgv ["a=2", "a=3"] false w = .error (.duplicateArgument "a")) := by
  refine ⟨fun toks w hnd => ?_, fun toks w hnd => ?_, fun toks w => ?_, rfl,
    fun w => by cases w <;> rfl⟩
  · obtain ⟨k, hk⟩ := mapArgvGo_not_nodup_error toks .nil [] w (by simp [keysD])
      (by simpa [keysD] using hnd)
    obtain ⟨h1, h2⟩ := mapArgvGo_dup_named toks .nil [] w k hk
    refine ⟨k, hk, ?_⟩
    rcases h2 with hmem | h2
    · simp [keysD] at hmem
    · exact h2
  · exact mapArgvGo_nodup_ok toks .nil [] w (by simpa [keysD] using hnd)
  · obtain ⟨res, ws, hok⟩ := mapArgvGo_allow_ok toks .nil [] w
    refine ⟨res, ws, hok, fun k => ?_, fun hw => ?_, fun hw => ?_⟩
    · have := mapArgvGo_lastWins toks .nil [] w res ws k hok
      simpa [lookupD] using this
    · subst hw; exact mapArgvGo_silent toks .nil [] res ws hok
    · subst hw
      have := mapArgvGo_warnCount toks .nil [] res ws hok
      simpa [PDict.sizeD] using this

/-- C5 (witness): the theorem applied to concrete token lists with and
without a repeated key. -/
theorem claim_C5_witness :
    (∃ k, Parser.mapArgv ["a=2", "a=3"] false true = .error (.duplicateArgument k)
      ∧ 2 ≤ ((["a=2", "a=3"] : List String).map Parser.tokKey).count k)
    ∧ (∃ res ws, Parser.mapArgv ["b=1", "c"] false true = .ok (res, ws)) :=
  ⟨claim_C5.1 ["a=2", "a=3"] true (by decide),
   claim_C5.2.1 ["b=1", "c"] true (by decide)⟩

/-- C6: resolving `{"a.b.c": 2, "a.b.d": 3}` expands the dotted compound
keys into nested structure and deletes the originals, yielding
`{"a": {"b": {"c": 2, "d": 3}}}`. -/
theorem claim_C6 :
    MinyDict.resolve 30 false (.cons "a.b.c" (.vint 2) (.cons "a.b.d" (.vint 3) .nil))
      = .ok (.cons "a" (.vminy false
          (.cons "b" (.vminy false
            (.cons "c" (.vint 2) (.cons "d" (.vint 3) .nil))) .nil)) .nil) := rfl

/-- C7: `resolve()` is idempotent up to Python dictionary equality: for
every MinyDict `d` (with the pairwise-distinct keys every Python dict has
by construction) whose first `resolve()` succeeds with contents `r`, a
second `resolve()` on `r` succeeds, and its contents are structurally
equal to `r` — `pyStructEqD` compares content ignoring only the
`dict`/`MinyDict` distinction and the frozen flags, both invisible to
Python `==` (a second pass re-wraps plain dicts sitting inside list
values, which `==` cannot observe).  `idFuel r` is fuel sufficient for
the second pass. -/
theorem claim_C7 (fuel : Nat) (fz : Bool) (d r : PDict)
    (hrun : MinyDict.resolve fuel fz d = .ok r) (hnd : ndD d) :
    ∃ r2, MinyDict.resolve (idFuel r) fz r = .ok r2 ∧ pyStructEqD r r2 = true := by
  simp only [MinyDict.resolve] at hrun ⊢
  cases hn : MinyDict.resolveNests fz d with
  | error er => rw [hn] at hrun; simp at hrun
  | ok d1 =>
    rw [hn] at hrun
    simp only [exceptBind_ok] at hrun
    obtain ⟨hkeys1, hnr1, hnde1⟩ := resolveNests_shape fz d d1 hn
    have hnd1 : ndD d1 := ⟨hnde1 hnd.1, by rw [hkeys1]; exact hnd.2⟩
    cases fuel with
    | zero => simp [MinyDict.resolveDots] at hrun
    | succ f2 =>
      simp only [MinyDict.resolveDots] at hrun
      cases fz with
      | true =>
        obtain ⟨heq, hgr⟩ := resolveKeys_frozen_id (keysD d1) f2 d1 r hrun hnr1 hnd1.2
          (fun kv hkv hks => absurd (mem_toL_key d1 kv hkv) hks)
        subst heq
        refine ⟨r, ?_, pyStructEqD_refl r⟩
        rw [resolveNests_frozen_id r hgr]
        simp only [exceptBind_ok, idFuel, MinyDict.resolveDots]
        exact resolveKeys_id _ true (keysD r) r hgr (fun k hk => hk) (le_refl _)
      | false =>
        obtain ⟨hdfr, hndr⟩ := (dotsMaster f2).1 (keysD d1) d1 r hrun hnr1 hnd1
          (fun kv hkv hks => absurd (mem_toL_key d1 kv hkv) hks)
        obtain ⟨r1, hok, hps, hgr, hndr1, hkeysr, hmndr⟩ := resolveNests_good r hdfr hndr
        refine ⟨r1, ?_, hps⟩
        rw [hok]
        simp only [exceptBind_ok, idFuel, MinyDict.resolveDots]
        refine resolveKeys_id _ false (keysD r1) r1 hgr (fun k hk => hk) ?_
        rw [hkeysr, hmndr]

/-- C7 (witness): the theorem applied to `{"a.b": 1}`, whose resolution
yields `{"a": {"b": 1}}`; re-resolving that returns contents structurally
equal to it. -/
theorem claim_C7_witness :
    ∃ r2, MinyDict.resolve
        (idFuel (.cons "a" (.vminy false (.cons "b" (.vint 1) .nil)) .nil)) false
        (.cons "a" (.vminy false (.cons "b" (.vint 1) .nil)) .nil)
      = .ok r2
    ∧ pyStructEqD (.cons "a" (.vminy false (.cons "b" (.vint 1) .nil)) .nil) r2 = true :=
  claim_C7 10 false (.cons "a.b" (.vint 1) .nil)
    (.cons "a" (.vminy false (.cons "b" (.vint 1) .nil)) .nil)
    rfl ⟨⟨trivial, trivial⟩, by simp [keysD]⟩

/-- C8: a key carrying a recognised `___type` suffix has the suffix
stripped from the stored key and the type constructor applied directly to
the raw string value (first conjunct); integer forcing goes through
`int(float(value))`, so the float-looking string `"3.9"` forced to int
yields the integer 3 (second conjunct). -/
theorem claim_C8 (n : Nat) (env : String → Option String) (we : Bool)
    (k base ts v : String)
    (hsplit : pySplit Parser.typeSeparator k = [base, ts])
    (hknown : ts ∈ Parser.knownTypes) :
    Parser.parseArgTypes (n+1) env (.cons k (.vstr v) .nil) false we
      = (Parser.forceType v ts).map (fun r => (.cons base r .nil, []))
    ∧ Parser.parseArgTypes (n+1) env (.cons "a___int" (.vstr "3.9") .nil) false we
      = .ok (.cons "a" (.vint 3) .nil, []) := by
  have hstrip : Parser.pyStripKey k = .ok (base, some ts) := by
    simp [Parser.pyStripKey, hsplit, hknown]
  have hinfer : Parser.inferArgType (n+1) (.vstr v) (some ts) = Parser.forceType v ts := rfl
  constructor
  · cases hf : Parser.forceType v ts <;>
      simp [Parser.parseArgTypes, Parser.parseArgTypesGo, hstrip, hinfer, hf, insertD,
        Except.map, Except.bind]
  · rfl

/-- C8 (witness): the theorem at the concrete key `"w___str"` with the
float-looking value kept as a raw string by the `str` constructor. -/
theorem claim_C8_witness :
    Parser.parseArgTypes 1 (fun _ => none) (.cons "w___str" (.vstr "3.9") .nil) false true
      = .ok (.cons "w" (.vstr "3.9") .nil, [])
    ∧ Parser.parseArgTypes 1 (fun _ => none) (.cons "a___int" (.vstr "3.9") .nil) false true
      = .ok (.cons "a" (.vint 3) .nil, []) := by
  have h := claim_C8 0 (fun _ => none) true "w___str" "w" "str" "3.9" (by decide) (by decide)
  exact ⟨h.1, h.2⟩

/-- C9: forcing boolean through a `___bool` key suffix applies Python
string truthiness to the raw value: the result is `True` exactly for
non-empty strings (so `"false"`, `"False"` and `"0"` force to `True`) and
`False` only for the empty string. -/
theorem claim_C9 (n : Nat) (env : String → Option String) (we : Bool)
    (k base s : String)
    (hsplit : pySplit Parser.typeSeparator k = [base, "bool"]) :
    Parser.parseArgTypes (n+1) env (.cons k (.vstr s) .nil) false we
      = .ok (.cons base (.vbool (!(s == ""))) .nil, []) := by
  have hstrip : Parser.pyStripKey k = .ok (base, some "bool") := by
    simp [Parser.pyStripKey, hsplit, Parser.knownTypes]
  have hinfer : Parser.inferArgType (n+1) (.vstr s) (some "bool")
      = .ok (.vbool (!(s == ""))) := rfl
  simp [Parser.parseArgTypes, Parser.parseArgTypesGo, hstrip, hinfer, insertD, Except.bind]

/-- C9 (witness): the strings `"false"`, `"False"` and `"0"` force to
`True`; the empty string forces to `False`. -/
theorem claim_C9_witness :
    Parser.parseArgTypes 1 (fun _ => none) (.cons "a___bool" (.vstr "false") .nil) false true
      = .ok (.cons "a" (.vbool true) .nil, [])
    ∧ Parser.parseArgTypes 1 (fun _ => none) (.cons "a___bool" (.vstr "False") .nil) false true
      = .ok (.cons "a" (.vbool true) .nil, [])
    ∧ Parser.parseArgTypes 1 (fun _ => none) (.cons "a___bool" (.vstr "0") .nil) false true
      = .ok (.cons "a" (.vbool true) .nil, [])
    ∧ Parser.parseArgTypes 1 (fun _ => none) (.cons "a___bool" (.vstr "") .nil) false true
      = .ok (.cons "a" (.vbool false) .nil, []) :=
  ⟨claim_C9 0 _ true "a___bool" "a" "false" (by decide),
   claim_C9 0 _ true "a___bool" "a" "False" (by decide),
   claim_C9 0 _ true "a___bool" "a" "0" (by decide),
   claim_C9 0 _ true "a___bool" "a" "" (by decide)⟩

/-- C10: a key containing the `"___"` separator two or more times (three
or more split parts) makes `parse_arg_types` raise the unhandled
two-element unpacking error regardless of the value and of the fuel
(first conjunct); a key with at most one occurrence is split without
error, and the entry is processed by value inference alone (second
conjunct). -/
theorem claim_C10 (n : Nat) (env : String → Option String) (we : Bool)
    (k : String) (v : PVal) :
    (3 ≤ (pySplit Parser.typeSeparator k).length →
      Parser.parseArgTypes n env (.cons k v .nil) false we = .error .valueErr)
    ∧ ((pySplit Parser.typeSeparator k).length ≤ 2 →
      ∃ base ts, Parser.pyStripKey k = .ok (base, ts)
        ∧ Parser.parseArgTypes n env (.cons k v .nil) false we
            = (Parser.inferArgType n v ts).map (fun r => (.cons base r .nil, []))) := by
  constructor
  · intro h3
    rcases hl : pySplit Parser.typeSeparator k with _ | ⟨a, _ | ⟨b, _ | ⟨c, rest⟩⟩⟩
    · rw [hl] at h3; simp at h3
    · rw [hl] at h3; simp at h3
    · rw [hl] at h3; simp at h3
    · have hstrip : Parser.pyStripKey k = .error .valueErr := by
        simp [Parser.pyStripKey, hl]
      simp [Parser.parseArgTypes, Parser.parseArgTypesGo, hstrip, Except.bind]
  · intro h2
    rcases hl : pySplit Parser.typeSeparator k with _ | ⟨a, _ | ⟨b, _ | ⟨c, rest⟩⟩⟩
    · exact absurd hl (pySplit_ne_nil _ _)
    · refine ⟨k, none, by simp [Parser.pyStripKey, hl], ?_⟩
      have hstrip : Parser.pyStripKey k = .ok (k, none) := by simp [Parser.pyStripKey, hl]
      cases hi : Parser.inferArgType n v none <;>
        simp [Parser.parseArgTypes, Parser.parseArgTypesGo, hstrip, hi, insertD,
          Except.map, Except.bind]
    · by_cases hb : b ∈ Parser.knownTypes
      · refine ⟨a, some b, by simp [Parser.pyStripKey, hl, hb], ?_⟩
        have hstrip : Parser.pyStripKey k = .ok (a, some b) := by
          simp [Parser.pyStripKey, hl, hb]
        cases hi : Parser.inferArgType n v (some b) <;>
          simp [Parser.parseArgTypes, Parser.parseArgTypesGo, hstrip, hi, insertD,
            Except.map, Except.bind]
      · refine ⟨k, none, by simp [Parser.pyStripKey, hl, hb], ?_⟩
        have hstrip : Parser.pyStripKey k = .ok (k, none) := by
          simp [Parser.pyStripKey, hl, hb]
        cases hi : Parser.inferArgType n v none <;>
          simp [Parser.parseArgTypes, Parser.parseArgTypesGo, hstrip, hi, insertD,
            Except.map, Except.bind]
    · rw [hl] at h2; simp at h2

/-- C10 (witness): the doubled separator key `"a___b___int"` errors; the
single-separator key `"a___int"` is processed. -/
theorem claim_C10_witness :
    Parser.parseArgTypes 3 (fun _ => none) (.cons "a___b___int" (.vstr "3") .nil) false true
      = .error .valueErr
    ∧ Parser.parseArgTypes 3 (fun _ => none) (.cons "a___int" (.vbool true) .nil) false true
      = .ok (.cons "a" (.vbool true) .nil, []) := by
  constructor
  · exact (claim_C10 3 (fun _ => none) true "a___b___int" (.vstr "3")).1 (by decide)
  · have h := (claim_C10 3 (fun _ => none) true "a___int" (.vbool true)).2 (by decide)
    rcases h with ⟨base, ts, hstrip, heq⟩
    have hx := hstrip.symm.trans
      (show Parser.pyStripKey "a___int" = .ok ("a", some "int") from rfl)
    obtain ⟨hb, ht⟩ := Prod.mk.inj (Except.ok.inj hx)
    rw [heq, hb, ht]
    rfl

end Minydra
